import Mathlib

/-!
Shallow embedding of the `SearchServer` document indexing and ranking engine
from `src/Project70/Source1.cpp` (the validating variant) together with the
parts of the looser variant in `src/unnamed/part_000` that the claims cite
(its `AddDocument`, `addDocumentData`, `deleteAllDocumentWords`).

Modelling conventions:
- C++ `std::map` and `std::set` are embedded as association lists and plain
  lists kept strictly sorted by key, so that list order coincides with the
  iteration order of the C++ containers.
- `std::string` comparison is byte-wise lexicographic; here `strLtb` compares
  the character lists by code point, which agrees with byte-wise comparison
  of the UTF-8 encodings.
- C++ `double` values are idealised as exact numbers: term frequencies are
  the exact rationals the code accumulates, and query-time relevance values
  live in `ℝ` with `Real.log` for `std::log`.
- C++ `int` is embedded as `ℤ`; `Int.tdiv` is C++ integer division
  (truncation toward zero).
- Functions that can throw return the state paired with an `Option` error
  (or `Option` results), mirroring the statement order of the source so a
  throw carries exactly the state at the throw point.
- `std::sort` is called on a comparator that is not a strict weak order
  (the epsilon tie-break breaks asymmetry), so the C++ standard leaves the
  exact output order unspecified; we model it as a stable insertion sort,
  the deterministic reading the specification itself recommends.
-/

namespace SearchEngine

/-- Ordered association list machinery, modelling `std::map` iteration. -/
def mapFind {α β : Type} [DecidableEq α] (k : α) : List (α × β) → Option β
  | [] => none
  | p :: rest => if k = p.1 then some p.2 else mapFind k rest

/-- Insert key `k`: combine with `f` when present, insert `d` at the sorted
position when absent.  Models `std::map` subscript-update. -/
def mapInsertWith {α β : Type} [DecidableEq α] (ltb : α → α → Bool)
    (f : β → β) (k : α) (d : β) : List (α × β) → List (α × β)
  | [] => [(k, d)]
  | p :: rest =>
    if ltb k p.1 then (k, d) :: p :: rest
    else if k = p.1 then (p.1, f p.2) :: rest
    else p :: mapInsertWith ltb f k d rest

/-- Remove every binding of key `k`, modelling `std::map::erase`. -/
def mapErase {α β : Type} [DecidableEq α] (k : α) (m : List (α × β)) :
    List (α × β) :=
  m.filter fun p => decide (p.1 ≠ k)

/-- Sorted-set insertion, modelling `std::set::insert`. -/
def setInsertBy {α : Type} [DecidableEq α] (ltb : α → α → Bool) (x : α) :
    List α → List α
  | [] => [x]
  | y :: ys =>
    if ltb x y then x :: y :: ys
    else if x = y then y :: ys
    else y :: setInsertBy ltb x ys

/-- Keys appear in strictly increasing order: the `std::map` invariant. -/
def SortedKeys {α β : Type} (ltb : α → α → Bool) (m : List (α × β)) : Prop :=
  m.Pairwise fun p q => ltb p.1 q.1 = true

/-- Elements appear in strictly increasing order: the `std::set` invariant. -/
def SortedSet {α : Type} (ltb : α → α → Bool) (s : List α) : Prop :=
  s.Pairwise fun a b => ltb a b = true

/-- Byte-wise (code-point) lexicographic comparison of character lists,
modelling `operator<` on `std::string`. -/
def charListLt : List Char → List Char → Bool
  | [], [] => false
  | [], _ :: _ => true
  | _ :: _, [] => false
  | a :: as, b :: bs =>
    if a.toNat < b.toNat then true
    else if b.toNat < a.toNat then false
    else charListLt as bs

/-- `std::string` strict comparison. -/
def strLtb (a b : String) : Bool := charListLt a.data b.data

/-- `int` strict comparison as a boolean. -/
def intLtb (a b : Int) : Bool := decide (a < b)

/-- The facts about a boolean comparison that make the sorted-container
lemmas go through. -/
structure StrictOrderOn {α : Type} (ltb : α → α → Bool) : Prop where
  irrefl : ∀ a, ltb a a = false
  trans : ∀ a b c, ltb a b = true → ltb b c = true → ltb a c = true
  total : ∀ a b, a ≠ b → ltb a b = true ∨ ltb b a = true

/-- `enum class DocumentStatus`. -/
inductive DocumentStatus : Type where
  | ACTUAL : DocumentStatus
  | IRRELEVANT : DocumentStatus
  | BANNED : DocumentStatus
  | REMOVED : DocumentStatus
deriving DecidableEq

/-- `struct Document`: one scored query result. -/
structure Document : Type where
  id : Int
  relevance : ℝ
  rating : Int

/-- `struct DocumentData`: the per-document record the index stores. -/
structure DocumentData : Type where
  rating : Int
  status : DocumentStatus
  words : List String
deriving DecidableEq

/-- `struct Query`: parsed plus and minus terms, each a `std::set<string>`. -/
structure Query : Type where
  plus_words : List String
  minus_words : List String
deriving DecidableEq

/-- `struct QueryWord`. -/
structure QueryWord : Type where
  data : String
  is_minus : Bool
  is_stop : Bool
deriving DecidableEq

/-- `MAX_RESULT_DOCUMENT_COUNT`. -/
def MAX_RESULT_DOCUMENT_COUNT : Nat := 5

/-- `EPSILON`, the relevance tie-break threshold `1e-6`. -/
noncomputable def EPSILON : ℝ := 1 / 1000000

/-- Whitespace delimiters of the validating `split`: space, CR, LF, tab and
vertical tab. -/
def isDelim (c : Char) : Bool :=
  c = ' ' || c = '\r' || c = '\n' || c = '\t' || c.toNat = 11

/-- Worker for `split`: scans characters, accumulating the current maximal
run of non-delimiter characters (in reverse). -/
def splitGo : List Char → List Char → List String
  | [], acc => if acc.isEmpty then [] else [String.mk acc.reverse]
  | c :: cs, acc =>
    if isDelim c then
      if acc.isEmpty then splitGo cs [] else String.mk acc.reverse :: splitGo cs []
    else splitGo cs (c :: acc)

/-- The validating `split`: maximal runs of non-delimiter characters, never
producing empty terms (`find_first_not_of` / `find_first_of` scanning). -/
def split (s : String) : List String := splitGo s.data []

/-- `isalpha` in the C locale, for ASCII codes. -/
def isAsciiAlpha (c : Char) : Bool :=
  (97 ≤ c.toNat && c.toNat ≤ 122) || (65 ≤ c.toNat && c.toNat ≤ 90)

/-- `isgraph` in the C locale, for ASCII codes. -/
def isAsciiGraph (c : Char) : Bool :=
  33 ≤ c.toNat && c.toNat ≤ 126

/-- `SearchServer::isValidChar`: bytes with the high bit set (negative
`char`) are always valid; control characters never are; the first character
must be alphabetic and the rest graphic. -/
def isValidChar (c : Char) (isFirst : Bool) : Bool :=
  if 128 ≤ c.toNat then true
  else if c.toNat < 32 || c.toNat = 127 then false
  else if isFirst then isAsciiAlpha c
  else isAsciiGraph c

/-- `SearchServer::isValidWord`. -/
def isValidWord (w : String) : Bool :=
  match w.data with
  | [] => false
  | c :: cs => isValidChar c true && cs.all fun d => isValidChar d false

/-- `SearchServer::computeAverageRating`: integer mean with C++ division. -/
def computeAverageRating (ratings : List Int) : Int :=
  if ratings.length = 0 then 0
  else Int.tdiv ratings.sum (ratings.length : Int)

/-- One `+=` step of `calculateTermFrequency` on an inner document map:
insert `v` if `d` is absent, otherwise add `v` to the stored frequency. -/
def bumpQ (d : Int) (v : ℚ) (m : List (Int × ℚ)) : List (Int × ℚ) :=
  mapInsertWith intLtb (fun x => x + v) d v m

/-- The loop body of `calculateTermFrequency` over the word list: every
occurrence of `w` adds `inv` to `freqs[w][docId]`. -/
def tfFold (docId : Int) (inv : ℚ) : List String →
    List (String × List (Int × ℚ)) → List (String × List (Int × ℚ))
  | [], freqs => freqs
  | w :: ws, freqs =>
    tfFold docId inv ws
      (mapInsertWith strLtb (bumpQ docId inv) w (bumpQ docId inv []) freqs)

/-- `SearchServer::calculateTermFrequency`, parameterised by the word list
of the document (the source reads it back from `documents_`; `AddDocument`
passes exactly the list it just stored). -/
def calculateTermFrequency (freqs : List (String × List (Int × ℚ)))
    (docId : Int) (words : List String) : List (String × List (Int × ℚ)) :=
  tfFold docId (1 / (words.length : ℚ)) words freqs

/-- The state of the validating `SearchServer` of `Source1.cpp`. -/
structure SearchServer : Type where
  word_to_document_freqs_ : List (String × List (Int × ℚ))
  documents_ : List (Int × DocumentData)
  m_stopWords : List String
  document_ids_ : List Int

/-- The default-constructed server. -/
def emptyServer : SearchServer := ⟨[], [], [], []⟩

/-- `SearchServer::isStopWord`. -/
def isStopWord (s : SearchServer) (w : String) : Bool :=
  s.m_stopWords.contains w

/-- `SearchServer::splitIntoWordsNoStop`: `none` when some split word fails
validation (the function returns `false`), otherwise the split words with
stop words discarded. -/
def splitIntoWordsNoStop (s : SearchServer) (text : String) :
    Option (List String) :=
  if (split text).all isValidWord then
    some ((split text).filter fun w => !isStopWord s w)
  else none

/-- Build a `std::set<string>` from a word list (used for the stop-word
constructor, which first collects the split words into a set). -/
def setOfList (ws : List String) : List String :=
  ws.foldl (fun acc w => setInsertBy strLtb w acc) []

/-- The loop of the container overload of `SetStopWords`: validate and
insert one word at a time, so an invalid word aborts mid-way with the
insertions made so far retained. -/
def setStopWordsFold (s : SearchServer) : List String →
    SearchServer × Option String
  | [] => (s, none)
  | w :: ws =>
    if isValidWord w then
      setStopWordsFold { s with m_stopWords := setInsertBy strLtb w s.m_stopWords } ws
    else (s, some "Bad stop word")

/-- `SearchServer::SetStopWords(const string&)`. -/
def SetStopWords (s : SearchServer) (text : String) :
    SearchServer × Option String :=
  setStopWordsFold s (setOfList (split text))

/-- `SearchServer::AddDocument`.  Mirrors the statement order of the source:
both throws happen before any member is mutated. -/
def AddDocument (s : SearchServer) (documentId : Int) (document : String)
    (status : DocumentStatus) (ratings : List Int) :
    SearchServer × Option String :=
  if documentId < 0 ∨ (mapFind documentId s.documents_).isSome then
    (s, some "Bad document id")
  else
    match splitIntoWordsNoStop s document with
    | none => (s, some "Bad document data")
    | some words =>
      ({ word_to_document_freqs_ :=
           calculateTermFrequency s.word_to_document_freqs_ documentId words,
         documents_ :=
           mapInsertWith intLtb (fun old => old) documentId
             ⟨computeAverageRating ratings, status, words⟩ s.documents_,
         m_stopWords := s.m_stopWords,
         document_ids_ := s.document_ids_ ++ [documentId] }, none)

/-- `SearchServer::GetDocumentCount`. -/
def GetDocumentCount (s : SearchServer) : Int :=
  (s.documents_.length : Int)

/-- `SearchServer::parseQueryWord`: `none` models returning `false`. -/
def parseQueryWord (s : SearchServer) (text : String) : Option QueryWord :=
  match text.data with
  | [] => none
  | c :: cs =>
    let stripped := if c = '-' then String.mk cs else text
    let isMinus := c = '-'
    if isValidWord stripped then
      some ⟨stripped, isMinus, isStopWord s stripped⟩
    else none

/-- The loop of `parseQuery` over the split words. -/
def parseQueryFold (s : SearchServer) : List String → Query → Option Query
  | [], q => some q
  | w :: ws, q =>
    match parseQueryWord s w with
    | none => none
    | some qw =>
      if qw.is_stop then parseQueryFold s ws q
      else if qw.is_minus then
        parseQueryFold s ws { q with minus_words := setInsertBy strLtb qw.data q.minus_words }
      else
        parseQueryFold s ws { q with plus_words := setInsertBy strLtb qw.data q.plus_words }

/-- `SearchServer::parseQuery`: `none` models returning `false`. -/
def parseQuery (s : SearchServer) (text : String) : Option Query :=
  parseQueryFold s (split text) ⟨[], []⟩

/-- `SearchServer::MatchDocument`.  `none` models the `invalid_argument`
throw on a malformed query and the `out_of_range` throw of
`documents_.at` on an unknown id. -/
def MatchDocument (s : SearchServer) (rawQuery : String) (documentId : Int) :
    Option (List String × DocumentStatus) :=
  match parseQuery s rawQuery with
  | none => none
  | some query =>
    match mapFind documentId s.documents_ with
    | none => none
    | some dd =>
      some
        (if query.minus_words.any fun w =>
            match mapFind w s.word_to_document_freqs_ with
            | none => false
            | some m => (mapFind documentId m).isSome
         then []
         else query.plus_words.filter fun w =>
            match mapFind w s.word_to_document_freqs_ with
            | none => false
            | some m => (mapFind documentId m).isSome,
         dd.status)

/-- `SearchServer::computeWordInverseDocumentFreq`:
`log(GetDocumentCount() * 1.0 / word_to_document_freqs_.at(word).size())`. -/
noncomputable def computeWordInverseDocumentFreq (s : SearchServer)
    (word : String) : ℝ :=
  Real.log ((s.documents_.length : ℝ) /
    (((mapFind word s.word_to_document_freqs_).getD []).length : ℝ))

/-- Whether the caller predicate accepts document `d` in state `s`
(documents absent from `documents_` never pass; on reachable states every
indexed id is present, matching `documents_.at`). -/
def predOk (s : SearchServer) (pred : Int → DocumentStatus → Int → Bool)
    (d : Int) : Bool :=
  match mapFind d s.documents_ with
  | none => false
  | some dd => pred d dd.status dd.rating

/-- One `document_to_relevance[id] += tf * idf` step. -/
def bumpR (d : Int) (v : ℝ) (m : List (Int × ℝ)) : List (Int × ℝ) :=
  mapInsertWith intLtb (fun x => x + v) d v m

/-- The inner plus-term loop of `findAllDocuments`: walk the document map of
one term and accumulate `term_freq * idf` for documents the predicate
accepts. -/
def plusInnerFold (s : SearchServer) (pred : Int → DocumentStatus → Int → Bool)
    (idf : ℝ) : List (Int × ℚ) → List (Int × ℝ) → List (Int × ℝ)
  | [], m => m
  | p :: ps, m =>
    plusInnerFold s pred idf ps
      (if predOk s pred p.1 then bumpR p.1 ((p.2 : ℝ) * idf) m else m)

/-- The outer plus-term loop of `findAllDocuments`. -/
noncomputable def plusFold (s : SearchServer)
    (pred : Int → DocumentStatus → Int → Bool) :
    List String → List (Int × ℝ) → List (Int × ℝ)
  | [], m => m
  | w :: ws, m =>
    plusFold s pred ws
      (match mapFind w s.word_to_document_freqs_ with
       | none => m
       | some docFreqs =>
         plusInnerFold s pred (computeWordInverseDocumentFreq s w) docFreqs m)

/-- The inner minus-term loop: erase every document listed under the term. -/
def minusInnerFold : List (Int × ℚ) → List (Int × ℝ) → List (Int × ℝ)
  | [], m => m
  | p :: ps, m => minusInnerFold ps (mapErase p.1 m)

/-- The outer minus-term loop of `findAllDocuments`. -/
def minusFold (s : SearchServer) :
    List String → List (Int × ℝ) → List (Int × ℝ)
  | [], m => m
  | w :: ws, m =>
    minusFold s ws
      (match mapFind w s.word_to_document_freqs_ with
       | none => m
       | some docFreqs => minusInnerFold docFreqs m)

/-- The rating `findAllDocuments` attaches (`documents_.at(id).rating`). -/
def ratingOf (s : SearchServer) (d : Int) : Int :=
  match mapFind d s.documents_ with
  | none => 0
  | some dd => dd.rating

/-- `SearchServer::findAllDocuments`: accumulate plus-term contributions,
erase minus-term documents, then materialise the remaining entries. -/
noncomputable def findAllDocuments (s : SearchServer) (query : Query)
    (pred : Int → DocumentStatus → Int → Bool) : List Document :=
  (minusFold s query.minus_words (plusFold s pred query.plus_words [])).map
    fun p => ⟨p.1, p.2, ratingOf s p.1⟩

/-- The sort comparator of `FindTopDocuments`. -/
noncomputable def documentLt (lhs rhs : Document) : Prop :=
  rhs.relevance < lhs.relevance ∨
    (|lhs.relevance - rhs.relevance| < EPSILON ∧ rhs.rating < lhs.rating)

noncomputable instance documentLtDec : DecidableRel documentLt := fun x y => by
  unfold documentLt
  infer_instance

/-- Stable insertion: `x` goes after every element strictly before it under
the comparator.  This is the deterministic model of the `std::sort` call
(whose comparator is not a strict weak order, so the C++ order is
implementation-defined; the specification recommends a stable sort). -/
noncomputable def insertSortedDoc (x : Document) : List Document → List Document
  | [] => [x]
  | y :: ys => if documentLt y x then y :: insertSortedDoc x ys else x :: y :: ys

/-- The relevance sort of `FindTopDocuments`, as a stable insertion sort. -/
noncomputable def sortDocuments : List Document → List Document
  | [] => []
  | x :: xs => insertSortedDoc x (sortDocuments xs)

/-- The final truncation of `FindTopDocuments`:
`if (size > MAX_RESULT_DOCUMENT_COUNT) resize(MAX_RESULT_DOCUMENT_COUNT)`. -/
noncomputable def truncateTop (l : List Document) : List Document :=
  if MAX_RESULT_DOCUMENT_COUNT < l.length then l.take MAX_RESULT_DOCUMENT_COUNT
  else l

/-- `SearchServer::FindTopDocuments` (predicate overload); `none` models the
`invalid_argument` throw on a malformed query. -/
noncomputable def FindTopDocuments (s : SearchServer) (rawQuery : String)
    (pred : Int → DocumentStatus → Int → Bool) : Option (List Document) :=
  match parseQuery s rawQuery with
  | none => none
  | some query => some (truncateTop (sortDocuments (findAllDocuments s query pred)))

/-- The pairwise relation the sort guarantees: the earlier element either
precedes under the comparator, or the later one does not precede it. -/
noncomputable def docQ (a b : Document) : Prop :=
  documentLt a b ∨ ¬ documentLt b a

/-- The structural well-formedness and faithfulness invariant of the
validating server: all maps are sorted, every stored frequency is the exact
term frequency of a stored document, every stored word is indexed, and no
term entry is empty. -/
structure ServerInv (s : SearchServer) : Prop where
  freqSorted : SortedKeys strLtb s.word_to_document_freqs_
  innerSorted : ∀ w m, mapFind w s.word_to_document_freqs_ = some m →
    SortedKeys intLtb m
  docsSorted : SortedKeys intLtb s.documents_
  tf_eq : ∀ w m, mapFind w s.word_to_document_freqs_ = some m →
    ∀ d q, mapFind d m = some q →
      ∃ dd, mapFind d s.documents_ = some dd ∧ w ∈ dd.words ∧
        q = (dd.words.count w : ℚ) / (dd.words.length : ℚ)
  complete : ∀ d dd, mapFind d s.documents_ = some dd → ∀ w ∈ dd.words,
    ∃ m, mapFind w s.word_to_document_freqs_ = some m ∧
      (mapFind d m).isSome
  nonempty : ∀ w m, mapFind w s.word_to_document_freqs_ = some m → m ≠ []

/-- States reachable through the public mutating interface of the
validating server (queries are read-only and return no state). -/
inductive Reachable : SearchServer → Prop where
  | empty : Reachable emptyServer
  | setStop (s : SearchServer) (text : String) :
      Reachable s → Reachable (SetStopWords s text).1
  | addDoc (s : SearchServer) (documentId : Int) (document : String)
      (status : DocumentStatus) (ratings : List Int) :
      Reachable s →
      Reachable (AddDocument s documentId document status ratings).1

/-- The per-document term frequency stored under a term, as the evaluator
reads it. -/
def wordTF (s : SearchServer) (w : String) (d : Int) : Option ℚ :=
  match mapFind w s.word_to_document_freqs_ with
  | none => none
  | some m => mapFind d m

/-- The TF-IDF contribution one plus term makes to one document. -/
noncomputable def tfIdfOf (s : SearchServer) (w : String) (d : Int) : ℝ :=
  ((wordTF s w d).getD 0 : ℝ) * computeWordInverseDocumentFreq s w

/-- The relevance formula as the specification words it: the sum, over the
plus terms occurring in the document, of the term frequency (occurrence
count over term count) times `ln(totalDocs / docsContainingTerm)`. -/
noncomputable def specRelevance (s : SearchServer) (plus : List String)
    (dd : DocumentData) : ℝ :=
  ((plus.filter fun t => decide (t ∈ dd.words)).map fun t =>
    ((dd.words.count t : ℝ) / (dd.words.length : ℝ)) *
      Real.log ((s.documents_.length : ℝ) /
        ((s.documents_.filter fun p => decide (t ∈ p.2.words)).length : ℝ))).sum

/-- The always-true document predicate, for concrete examples. -/
def predTrue : Int → DocumentStatus → Int → Bool := fun _ _ _ => true

/-- A concrete one-document server. -/
def exServer1 : SearchServer :=
  (AddDocument emptyServer 0 "cat" DocumentStatus.ACTUAL [1, 2, 3]).1

/-- A concrete two-document server. -/
def exServer2 : SearchServer :=
  (AddDocument exServer1 1 "cat dog" DocumentStatus.ACTUAL [5]).1

/-- The result list of the example query on the one-document server. -/
noncomputable def c1out : List Document :=
  (FindTopDocuments exServer1 "cat" predTrue).getD []

/-- The single returned document of the example query. -/
noncomputable def c1doc : Document := c1out.headD ⟨0, 0, 0⟩

/-- The document map stored under "cat" in the example server. -/
def c2mm : List (Int × ℚ) :=
  (mapFind "cat" exServer1.word_to_document_freqs_).getD []

/-- The stored record of the example document. -/
def c8dd : DocumentData := ⟨2, DocumentStatus.ACTUAL, ["cat"]⟩

/-- The matched-terms answer of the example match query. -/
def c10r : List String × DocumentStatus :=
  (MatchDocument exServer2 "dog cat" 1).getD ([], DocumentStatus.ACTUAL)

end SearchEngine

namespace LooseEngine

open SearchEngine (DocumentStatus DocumentData mapFind mapInsertWith mapErase
  strLtb intLtb bumpQ tfFold computeAverageRating)

/-- The simple `SplitIntoWords` of the loose variant: split on single
spaces, keeping empty tokens (including a trailing one). -/
def SplitIntoWordsGo : List Char → List Char → List String
  | [], acc => [String.mk acc.reverse]
  | c :: cs, acc =>
    if c = ' ' then String.mk acc.reverse :: SplitIntoWordsGo cs []
    else SplitIntoWordsGo cs (c :: acc)

/-- `SplitIntoWords` of `src/unnamed/part_000`. -/
def SplitIntoWords (text : String) : List String :=
  SplitIntoWordsGo text.data []

/-- The state of the loose `SearchServer` of `src/unnamed/part_000`. -/
structure LooseServer : Type where
  stop_words_ : List String
  word_to_document_freqs_ : List (String × List (Int × ℚ))
  documents_ : List (Int × DocumentData)

/-- `isStopWord` of the loose variant. -/
def isStopWord (s : LooseServer) (w : String) : Bool :=
  s.stop_words_.contains w

/-- `splitIntoWordsNoStop` of the loose variant: never fails. -/
def splitIntoWordsNoStop (s : LooseServer) (text : String) : List String :=
  (SplitIntoWords text).filter fun w => !isStopWord s w

/-- `addDocumentData` of the loose variant: fresh id inserts and returns
`true`; an existing id appends the words to the stored document and
returns `false`. -/
def addDocumentData (s : LooseServer) (document_id : Int)
    (words : List String) (status : DocumentStatus) (ratings : List Int) :
    LooseServer × Bool :=
  match mapFind document_id s.documents_ with
  | none =>
    let docs := mapInsertWith intLtb (fun old => old) document_id
      ⟨computeAverageRating ratings, status, words⟩ s.documents_
    ({ s with documents_ := docs }, true)
  | some dd =>
    let docs := mapInsertWith intLtb
      (fun old => { old with words := old.words ++ words }) document_id
      { dd with words := dd.words ++ words } s.documents_
    ({ s with documents_ := docs }, false)

/-- `deleteAllDocumentWords`: erase the document from every inner map, then
drop the term entries whose inner map became empty. -/
def deleteAllDocumentWords (s : LooseServer) (documentId : Int) : LooseServer :=
  let freqs :=
    (s.word_to_document_freqs_.map fun p => (p.1, mapErase documentId p.2)).filter
      fun p => !p.2.isEmpty
  { s with word_to_document_freqs_ := freqs }

/-- The word list `calculateTermFrequency` of the loose variant reads from
`documents_[documentId]` (`operator[]` would default-construct, but the
caller has always just stored the document). -/
def storedWords (s : LooseServer) (documentId : Int) : List String :=
  match mapFind documentId s.documents_ with
  | none => []
  | some dd => dd.words

/-- `calculateTermFrequency` of the loose variant. -/
def calculateTermFrequency (s : LooseServer) (documentId : Int) : LooseServer :=
  let freqs :=
    tfFold documentId (1 / ((storedWords s documentId).length : ℚ))
      (storedWords s documentId) s.word_to_document_freqs_
  { s with word_to_document_freqs_ := freqs }

/-- The middle of the loose `AddDocument`: store or merge the document,
and on a merge (duplicate id) delete all old postings of the document. -/
def addAndClean (s : LooseServer) (document_id : Int) (words : List String)
    (status : DocumentStatus) (ratings : List Int) : LooseServer :=
  if (addDocumentData s document_id words status ratings).2 then
    (addDocumentData s document_id words status ratings).1
  else
    deleteAllDocumentWords
      (addDocumentData s document_id words status ratings).1 document_id

/-- `AddDocument` of the loose variant: `false` (the only failing outcome)
is returned for an empty document before any mutation; a duplicate id is
not a failure there — the words are merged, the old postings deleted and
the frequencies recomputed, and `true` is returned. -/
def AddDocument (s : LooseServer) (document_id : Int) (document : String)
    (status : DocumentStatus) (ratings : List Int) : LooseServer × Bool :=
  if document = "" then (s, false)
  else
    (calculateTermFrequency
      (addAndClean s document_id (splitIntoWordsNoStop s document) status
        ratings) document_id, true)

end LooseEngine

namespace SearchEngine

/-- Cons characterisation of the lexicographic comparison. -/
theorem charListLt_cons {a b : Char} {as bs : List Char} :
    charListLt (a :: as) (b :: bs) = true ↔
      a.toNat < b.toNat ∨ (a.toNat = b.toNat ∧ charListLt as bs = true) := by
  by_cases h1 : a.toNat < b.toNat
  · simp [charListLt, h1]
  · by_cases h2 : b.toNat < a.toNat
    · simp only [charListLt, if_neg h1, if_pos h2]
      constructor
      · intro h; cases h
      · rintro (h | ⟨he, -⟩) <;> omega
    · have h3 : a.toNat = b.toNat := by omega
      simp [charListLt, h1, h2, h3]

theorem charListLt_irrefl : ∀ l, charListLt l l = false
  | [] => rfl
  | _ :: cs => by simp [charListLt, charListLt_irrefl cs]

theorem charListLt_trans : ∀ a b c, charListLt a b = true →
    charListLt b c = true → charListLt a c = true
  | [], [], _, h, _ => by simp [charListLt] at h
  | [], _ :: _, [], _, h => by simp [charListLt] at h
  | [], _ :: _, _ :: _, _, _ => rfl
  | _ :: _, [], _, h, _ => by simp [charListLt] at h
  | _ :: _, _ :: _, [], _, h => by simp [charListLt] at h
  | a :: as, b :: bs, c :: cs, h1, h2 => by
    rw [charListLt_cons] at h1 h2 ⊢
    rcases h1 with h1 | ⟨e1, r1⟩
    · rcases h2 with h2 | ⟨e2, r2⟩
      · exact Or.inl (h1.trans h2)
      · exact Or.inl (by omega)
    · rcases h2 with h2 | ⟨e2, r2⟩
      · exact Or.inl (by omega)
      · exact Or.inr ⟨by omega, charListLt_trans as bs cs r1 r2⟩

theorem charListLt_total : ∀ a b, a ≠ b →
    charListLt a b = true ∨ charListLt b a = true
  | [], [], h => absurd rfl h
  | [], _ :: _, _ => Or.inl rfl
  | _ :: _, [], _ => Or.inr rfl
  | a :: as, b :: bs, h => by
    rw [charListLt_cons, charListLt_cons]
    rcases Nat.lt_trichotomy a.toNat b.toNat with hl | he | hg
    · exact Or.inl (Or.inl hl)
    · have hc : a = b := Char.ext (UInt32.ext he)
      subst hc
      have hne : as ≠ bs := fun hh => h (by rw [hh])
      rcases charListLt_total as bs hne with ht | ht
      · exact Or.inl (Or.inr ⟨rfl, ht⟩)
      · exact Or.inr (Or.inr ⟨rfl, ht⟩)
    · exact Or.inr (Or.inl hg)

theorem strLtb_strict : StrictOrderOn strLtb := by
  refine ⟨fun a => ?_, fun a b c => ?_, fun a b h => ?_⟩
  · simpa [strLtb] using charListLt_irrefl a.data
  · exact charListLt_trans a.data b.data c.data
  · exact charListLt_total a.data b.data fun hd => h (String.ext hd)

theorem intLtb_strict : StrictOrderOn intLtb := by
  refine ⟨fun a => ?_, fun a b c h1 h2 => ?_, fun a b h => ?_⟩
  · simp [intLtb]
  · simp only [intLtb, decide_eq_true_iff] at h1 h2 ⊢
    exact h1.trans h2
  · simp only [intLtb, decide_eq_true_iff]
    exact lt_or_gt_of_ne h

section MapLemmas

variable {α β : Type} [DecidableEq α] {ltb : α → α → Bool}

theorem mapFind_isSome_iff {k : α} : ∀ {m : List (α × β)},
    (mapFind k m).isSome ↔ k ∈ m.map Prod.fst := by
  intro m
  induction m with
  | nil => simp [mapFind]
  | cons p rest ih =>
    by_cases h : k = p.1
    · simp [mapFind, h]
    · simp [mapFind, h, ih, Ne.symm h]

theorem mapFind_mem {k : α} {v : β} : ∀ {m : List (α × β)},
    mapFind k m = some v → (k, v) ∈ m := by
  intro m
  induction m with
  | nil => intro h; simp [mapFind] at h
  | cons p rest ih =>
    intro hv
    by_cases h : k = p.1
    · rw [mapFind, if_pos h] at hv
      have hv2 := Option.some.inj hv
      have hp : (k, v) = p := by rw [h, ← hv2]
      rw [hp]
      exact List.mem_cons_self ..
    · rw [mapFind, if_neg h] at hv
      exact List.mem_cons_of_mem _ (ih hv)

theorem sortedKeys_head_not_mem_tail (so : StrictOrderOn ltb) {p : α × β}
    {rest : List (α × β)} (hs : SortedKeys ltb (p :: rest)) :
    mapFind p.1 rest = none := by
  rcases hh : mapFind p.1 rest with _ | v
  · rfl
  · have hmem := mapFind_mem hh
    have := (List.pairwise_cons.mp hs).1 _ hmem
    simp only at this
    rw [so.irrefl] at this
    cases this

theorem mem_mapFind (so : StrictOrderOn ltb) {k : α} {v : β} :
    ∀ {m : List (α × β)}, SortedKeys ltb m → (k, v) ∈ m →
      mapFind k m = some v := by
  intro m
  induction m with
  | nil => simp
  | cons p rest ih =>
    intro hs hm
    rcases List.mem_cons.mp hm with he | ht
    · rw [← he]
      simp [mapFind]
    · have hk : k ≠ p.1 := by
        intro hk
        have := (List.pairwise_cons.mp hs).1 _ ht
        rw [← hk] at this
        simp only at this
        have h2 : mapFind k rest = some v := ih (List.pairwise_cons.mp hs).2 ht
        have h3 := mapFind_mem h2
        have h4 := (List.pairwise_cons.mp hs).1 _ h3
        rw [← hk] at h4
        simp only at h4
        rw [so.irrefl] at h4
        cases h4
      simp only [mapFind, if_neg hk]
      exact ih (List.pairwise_cons.mp hs).2 ht

theorem mapFind_insertWith_other {f : β → β} {k k' : α} {d : β}
    (h : k' ≠ k) : ∀ {m : List (α × β)},
    mapFind k' (mapInsertWith ltb f k d m) = mapFind k' m := by
  intro m
  induction m with
  | nil => simp [mapInsertWith, mapFind, h]
  | cons p rest ih =>
    by_cases h1 : ltb k p.1
    · simp [mapInsertWith, h1, mapFind, h]
    · by_cases h2 : k = p.1
      · have h3 : k' ≠ p.1 := by rw [← h2]; exact h
        simp only [mapInsertWith, if_neg h1, if_pos h2]
        rw [mapFind, if_neg h3, mapFind, if_neg h3]
      · by_cases h3 : k' = p.1
        · simp only [mapInsertWith, if_neg h1, if_neg h2]
          rw [mapFind, if_pos h3, mapFind, if_pos h3]
        · simp only [mapInsertWith, if_neg h1, if_neg h2]
          rw [mapFind, if_neg h3, mapFind, if_neg h3, ih]

theorem mapFind_insertWith_self (so : StrictOrderOn ltb) {f : β → β}
    {k : α} {d : β} : ∀ {m : List (α × β)}, SortedKeys ltb m →
    mapFind k (mapInsertWith ltb f k d m) =
      some ((mapFind k m).elim d f) := by
  intro m
  induction m with
  | nil => simp [mapInsertWith, mapFind]
  | cons p rest ih =>
    intro hs
    by_cases h1 : ltb k p.1
    · have hk : k ≠ p.1 := fun he => by
        rw [he, so.irrefl] at h1; cases h1
      have hnone : mapFind k rest = none := by
        rcases hh : mapFind k rest with _ | v
        · rfl
        · have hmem := mapFind_mem hh
          have h2 := (List.pairwise_cons.mp hs).1 _ hmem
          simp only at h2
          have := so.trans _ _ _ h1 h2
          rw [so.irrefl] at this
          cases this
      simp [mapInsertWith, h1, mapFind, hk, hnone]
    · by_cases h2 : k = p.1
      · subst h2
        simp [mapInsertWith, h1, mapFind]
      · simp only [mapInsertWith, if_neg h1, if_neg h2, mapFind, if_neg h2]
        exact ih (List.pairwise_cons.mp hs).2

theorem mem_insertWith {f : β → β} {k : α} {d : β} {p : α × β} :
    ∀ {m : List (α × β)}, p ∈ mapInsertWith ltb f k d m →
      p.1 = k ∨ p ∈ m := by
  intro m
  induction m with
  | nil =>
    intro h
    simp only [mapInsertWith, List.mem_singleton] at h
    exact Or.inl (by rw [h])
  | cons q rest ih =>
    intro h
    by_cases h1 : ltb k q.1
    · simp only [mapInsertWith, if_pos h1, List.mem_cons] at h
      rcases h with h | h | h
      · exact Or.inl (by rw [h])
      · exact Or.inr (by rw [h]; exact List.mem_cons_self ..)
      · exact Or.inr (List.mem_cons_of_mem _ h)
    · by_cases h2 : k = q.1
      · simp only [mapInsertWith, if_neg h1, if_pos h2, List.mem_cons] at h
        rcases h with h | h
        · exact Or.inl (by rw [h, ← h2])
        · exact Or.inr (List.mem_cons_of_mem _ h)
      · simp only [mapInsertWith, if_neg h1, if_neg h2, List.mem_cons] at h
        rcases h with h | h
        · exact Or.inr (by rw [h]; exact List.mem_cons_self ..)
        · rcases ih h with h3 | h3
          · exact Or.inl h3
          · exact Or.inr (List.mem_cons_of_mem _ h3)

theorem sortedKeys_insertWith (so : StrictOrderOn ltb) {f : β → β}
    {k : α} {d : β} : ∀ {m : List (α × β)}, SortedKeys ltb m →
    SortedKeys ltb (mapInsertWith ltb f k d m) := by
  intro m
  induction m with
  | nil =>
    intro _
    simp [mapInsertWith, SortedKeys]
  | cons q rest ih =>
    intro hs
    have hq := (List.pairwise_cons.mp hs).1
    have ht := (List.pairwise_cons.mp hs).2
    by_cases h1 : ltb k q.1
    · simp only [mapInsertWith, if_pos h1]
      refine List.pairwise_cons.mpr ⟨?_, hs⟩
      intro x hx
      rcases List.mem_cons.mp hx with he | hm
      · rw [he]; exact h1
      · exact so.trans _ _ _ h1 (hq _ hm)
    · by_cases h2 : k = q.1
      · simp only [mapInsertWith, if_neg h1, if_pos h2]
        exact List.pairwise_cons.mpr ⟨hq, ht⟩
      · simp only [mapInsertWith, if_neg h1, if_neg h2]
        refine List.pairwise_cons.mpr ⟨?_, ih ht⟩
        intro x hx
        rcases mem_insertWith hx with h3 | h3
        · rw [h3]
          rcases so.total k q.1 h2 with h4 | h4
          · exact absurd h4 h1
          · exact h4
        · exact hq _ h3

theorem length_insertWith_fresh {f : β → β} {k : α} {d : β} :
    ∀ {m : List (α × β)}, mapFind k m = none →
      (mapInsertWith ltb f k d m).length = m.length + 1 := by
  intro m
  induction m with
  | nil => intro _; rfl
  | cons q rest ih =>
    intro h
    have hk : k ≠ q.1 := by
      intro he
      simp [mapFind, he] at h
    have ht : mapFind k rest = none := by
      simpa [mapFind, hk] using h
    by_cases h1 : ltb k q.1
    · simp [mapInsertWith, h1]
    · simp [mapInsertWith, h1, hk, ih ht]

theorem length_insertWith_found (so : StrictOrderOn ltb) {f : β → β}
    {k : α} {d : β} : ∀ {m : List (α × β)}, SortedKeys ltb m →
      (mapFind k m).isSome →
      (mapInsertWith ltb f k d m).length = m.length := by
  intro m
  induction m with
  | nil => intro _ h; simp [mapFind] at h
  | cons q rest ih =>
    intro hs h
    by_cases h2 : k = q.1
    · have h1 : ¬ ltb k q.1 := by
        rw [h2, so.irrefl]; simp
      simp only [mapInsertWith, if_neg h1, if_pos h2]
      simp
    · have ht : (mapFind k rest).isSome := by
        simpa [mapFind, h2] using h
      have h1 : ¬ ltb k q.1 := by
        intro h1
        have hmem := mapFind_mem (Option.isSome_iff_exists.mp ht).choose_spec
        have h3 := (List.pairwise_cons.mp hs).1 _ hmem
        simp only at h3
        have := so.trans _ _ _ h1 h3
        rw [so.irrefl] at this
        cases this
      simp [mapInsertWith, h1, h2, ih (List.pairwise_cons.mp hs).2 ht]

omit [DecidableEq α] in
theorem nodup_keys (so : StrictOrderOn ltb) {m : List (α × β)}
    (hs : SortedKeys ltb m) : (m.map Prod.fst).Nodup := by
  refine List.Pairwise.map Prod.fst ?_ hs
  intro p q h
  intro he
  rw [he, so.irrefl] at h
  cases h

theorem mapFind_mapErase_self {k : α} {m : List (α × β)} :
    mapFind k (mapErase k m) = none := by
  induction m with
  | nil => rfl
  | cons p rest ih =>
    by_cases h : p.1 = k
    · simpa [mapErase, h] using ih
    · simpa [mapErase, mapFind, h, Ne.symm h] using ih

theorem mapFind_mapErase_other {k k' : α} (h : k' ≠ k) :
    ∀ {m : List (α × β)}, mapFind k' (mapErase k m) = mapFind k' m := by
  intro m
  induction m with
  | nil => rfl
  | cons p rest ih =>
    by_cases h1 : p.1 = k
    · have h2 : k' ≠ p.1 := by rw [h1]; exact h
      have e1 : mapErase k (p :: rest) = mapErase k rest := by
        simp [mapErase, h1]
      rw [e1, ih, mapFind, if_neg h2]
    · have e1 : mapErase k (p :: rest) = p :: mapErase k rest := by
        simp [mapErase, h1]
      rw [e1]
      by_cases h2 : k' = p.1
      · rw [mapFind, if_pos h2, mapFind, if_pos h2]
      · rw [mapFind, if_neg h2, mapFind, if_neg h2, ih]

theorem sortedKeys_mapErase {k : α} {m : List (α × β)}
    (hs : SortedKeys ltb m) : SortedKeys ltb (mapErase k m) :=
  List.Pairwise.filter _ hs

end MapLemmas

section SetLemmas

variable {α : Type} [DecidableEq α] {ltb : α → α → Bool}

theorem mem_setInsertBy {x y : α} : ∀ {s : List α},
    y ∈ setInsertBy ltb x s ↔ y = x ∨ y ∈ s := by
  intro s
  induction s with
  | nil => simp [setInsertBy]
  | cons z rest ih =>
    by_cases h1 : ltb x z
    · simp [setInsertBy, h1]
    · by_cases h2 : x = z
      · simp only [setInsertBy, if_neg h1, if_pos h2]
        constructor
        · intro hy; exact Or.inr hy
        · rintro (hy | hy)
          · rw [hy, h2]; exact List.mem_cons_self ..
          · exact hy
      · simp only [setInsertBy, if_neg h1, if_neg h2, List.mem_cons, ih]
        tauto

theorem sortedSet_setInsertBy (so : StrictOrderOn ltb) {x : α} :
    ∀ {s : List α}, SortedSet ltb s → SortedSet ltb (setInsertBy ltb x s) := by
  intro s
  induction s with
  | nil =>
    intro _
    simp [setInsertBy, SortedSet]
  | cons z rest ih =>
    intro hs
    have hz := (List.pairwise_cons.mp hs).1
    have ht := (List.pairwise_cons.mp hs).2
    by_cases h1 : ltb x z
    · simp only [setInsertBy, if_pos h1]
      refine List.pairwise_cons.mpr ⟨?_, hs⟩
      intro y hy
      rcases List.mem_cons.mp hy with he | hm
      · rw [he]; exact h1
      · exact so.trans _ _ _ h1 (hz _ hm)
    · by_cases h2 : x = z
      · simp only [setInsertBy, if_neg h1, if_pos h2]
        exact hs
      · simp only [setInsertBy, if_neg h1, if_neg h2]
        refine List.pairwise_cons.mpr ⟨?_, ih ht⟩
        intro y hy
        rcases mem_setInsertBy.mp hy with he | hm
        · rw [he]
          rcases so.total x z h2 with h4 | h4
          · exact absurd h4 h1
          · exact h4
        · exact hz _ hm

omit [DecidableEq α] in
theorem sortedSet_nodup (so : StrictOrderOn ltb) {s : List α}
    (hs : SortedSet ltb s) : s.Nodup := by
  refine hs.imp ?_
  intro a b h he
  rw [he, so.irrefl] at h
  cases h

end SetLemmas

/-- The plus and minus word sets a successful parse returns are strictly
sorted, because they are built by `std::set` insertion. -/
theorem parseQueryFold_sorted (s : SearchServer) : ∀ (ws : List String)
    (q q' : Query), parseQueryFold s ws q = some q' →
    SortedSet strLtb q.plus_words → SortedSet strLtb q.minus_words →
    SortedSet strLtb q'.plus_words ∧ SortedSet strLtb q'.minus_words := by
  intro ws
  induction ws with
  | nil =>
    intro q q' h hp hm
    rw [parseQueryFold] at h
    cases h
    exact ⟨hp, hm⟩
  | cons w ws ih =>
    intro q q' h hp hm
    rw [parseQueryFold] at h
    split at h
    · cases h
    · rename_i qw _
      by_cases h1 : qw.is_stop
      · rw [if_pos h1] at h
        exact ih _ _ h hp hm
      · rw [if_neg h1] at h
        by_cases h2 : qw.is_minus
        · rw [if_pos h2] at h
          exact ih _ _ h hp (sortedSet_setInsertBy strLtb_strict hm)
        · rw [if_neg h2] at h
          exact ih _ _ h (sortedSet_setInsertBy strLtb_strict hp) hm

/-- Specialisation of `parseQueryFold_sorted` to `parseQuery`. -/
theorem parseQuery_sorted {s : SearchServer} {text : String} {q : Query}
    (h : parseQuery s text = some q) :
    SortedSet strLtb q.plus_words ∧ SortedSet strLtb q.minus_words :=
  parseQueryFold_sorted s (split text) ⟨[], []⟩ q h
    (List.Pairwise.nil) (List.Pairwise.nil)

/-- `EPSILON` is positive. -/
theorem epsilon_pos : (0 : ℝ) < EPSILON := by
  unfold EPSILON
  norm_num

/-- The key transitivity-through-a-pivot fact about the epsilon comparator:
if `y` does not strictly precede `x` and `y` relates to `z` by `docQ`, then
`x` relates to `z` by `docQ`. -/
theorem documentLt_pivot {x y z : Document} (hyx : ¬ documentLt y x)
    (hQz : docQ y z) : docQ x z := by
  by_cases hxz : documentLt x z
  · exact Or.inl hxz
  · refine Or.inr fun hzx => ?_
    unfold documentLt at hyx hxz hzx
    unfold docQ documentLt at hQz
    push_neg at hyx hxz
    obtain ⟨h1, h2⟩ := hyx
    obtain ⟨h3, h4⟩ := hxz
    rcases hzx with hc1 | ⟨hc1, hc2⟩
    · -- x.relevance < z.relevance
      rcases hQz with (hA | ⟨hA1, hA2⟩) | hB
      · linarith
      · by_cases hd : |x.relevance - z.relevance| < EPSILON
        · have hxt := h4 hd
          rw [abs_sub_lt_iff] at hA1
          have hyx2 : |y.relevance - x.relevance| < EPSILON := by
            rw [abs_sub_lt_iff]
            constructor <;> linarith
          have hyt := h2 hyx2
          omega
        · rw [abs_sub_lt_iff] at hA1
          rw [not_lt] at hd
          rcases abs_cases (x.relevance - z.relevance) with ⟨he, -⟩ | ⟨he, -⟩ <;>
            linarith
      · push_neg at hB
        linarith [hB.1]
    · -- z and x are within epsilon and x.rating < z.rating
      rcases hQz with (hA | ⟨hA1, hA2⟩) | hB
      · linarith
      · rw [abs_sub_lt_iff] at hA1 hc1
        have hyx2 : |y.relevance - x.relevance| < EPSILON := by
          rw [abs_sub_lt_iff]
          constructor <;> linarith
        have hyt := h2 hyx2
        omega
      · push_neg at hB
        obtain ⟨hB1, hB2⟩ := hB
        have hall : z.relevance = x.relevance := le_antisymm (by linarith) h3
        have hzy : |z.relevance - y.relevance| < EPSILON := by
          rw [abs_sub_lt_iff]
          constructor <;> [linarith [epsilon_pos]; linarith [epsilon_pos]]
        have hzt := hB2 hzy
        have hyx2 : |y.relevance - x.relevance| < EPSILON := by
          rw [abs_sub_lt_iff]
          constructor <;> [linarith [epsilon_pos]; linarith [epsilon_pos]]
        have hyt := h2 hyx2
        omega

/-- Membership in the insertion step. -/
theorem mem_insertSortedDoc {x z : Document} : ∀ {l : List Document},
    z ∈ insertSortedDoc x l → z = x ∨ z ∈ l := by
  intro l
  induction l with
  | nil =>
    intro h
    rw [insertSortedDoc, List.mem_singleton] at h
    exact Or.inl h
  | cons y ys ih =>
    intro h
    by_cases h1 : documentLt y x
    · rw [insertSortedDoc, if_pos h1, List.mem_cons] at h
      rcases h with h | h
      · exact Or.inr (by rw [h]; exact List.mem_cons_self ..)
      · rcases ih h with h2 | h2
        · exact Or.inl h2
        · exact Or.inr (List.mem_cons_of_mem _ h2)
    · rw [insertSortedDoc, if_neg h1, List.mem_cons] at h
      rcases h with h | h
      · exact Or.inl h
      · exact Or.inr h

/-- The insertion step preserves the pairwise sort guarantee. -/
theorem pairwiseQ_insertSortedDoc {x : Document} : ∀ {l : List Document},
    l.Pairwise docQ → (insertSortedDoc x l).Pairwise docQ := by
  intro l
  induction l with
  | nil =>
    intro _
    simp [insertSortedDoc]
  | cons y ys ih =>
    intro hp
    have hy := (List.pairwise_cons.mp hp).1
    have ht := (List.pairwise_cons.mp hp).2
    by_cases h1 : documentLt y x
    · rw [insertSortedDoc, if_pos h1]
      refine List.pairwise_cons.mpr ⟨?_, ih ht⟩
      intro z hz
      rcases mem_insertSortedDoc hz with h2 | h2
      · rw [h2]; exact Or.inl h1
      · exact hy _ h2
    · rw [insertSortedDoc, if_neg h1]
      refine List.pairwise_cons.mpr ⟨?_, hp⟩
      intro z hz
      rcases List.mem_cons.mp hz with h2 | h2
      · rw [h2]; exact Or.inr h1
      · exact documentLt_pivot h1 (hy _ h2)

/-- The full sort output satisfies the pairwise guarantee. -/
theorem pairwiseQ_sortDocuments : ∀ l : List Document,
    (sortDocuments l).Pairwise docQ
  | [] => List.Pairwise.nil
  | _ :: xs => pairwiseQ_insertSortedDoc (pairwiseQ_sortDocuments xs)

/-- The insertion step is a permutation. -/
theorem insertSortedDoc_perm (x : Document) : ∀ l : List Document,
    (insertSortedDoc x l).Perm (x :: l)
  | [] => List.Perm.refl _
  | y :: ys => by
    by_cases h : documentLt y x
    · rw [insertSortedDoc, if_pos h]
      exact ((insertSortedDoc_perm x ys).cons y).trans (List.Perm.swap x y ys)
    · rw [insertSortedDoc, if_neg h]

/-- The sort is a permutation. -/
theorem sortDocuments_perm : ∀ l : List Document, (sortDocuments l).Perm l
  | [] => List.Perm.refl _
  | x :: xs =>
    (insertSortedDoc_perm x (sortDocuments xs)).trans
      ((sortDocuments_perm xs).cons x)

/-- The truncation step yields a sublist. -/
theorem truncateTop_sublist (l : List Document) : (truncateTop l).Sublist l := by
  unfold truncateTop
  by_cases h : MAX_RESULT_DOCUMENT_COUNT < l.length
  · rw [if_pos h]
    exact List.take_sublist _ l
  · rw [if_neg h]

/-- The pairwise guarantee implies the ordering property of the claim. -/
theorem docQ_implies_claim {a b : Document} (h : docQ a b) :
    b.relevance < a.relevance ∨
      (|a.relevance - b.relevance| < EPSILON ∧ b.rating ≤ a.rating) := by
  rcases h with h | h
  · rcases h with h | ⟨h1, h2⟩
    · exact Or.inl h
    · exact Or.inr ⟨h1, le_of_lt h2⟩
  · unfold documentLt at h
    push_neg at h
    obtain ⟨h1, h2⟩ := h
    rcases lt_or_eq_of_le h1 with h3 | h3
    · exact Or.inl h3
    · refine Or.inr ⟨?_, ?_⟩
      · rw [h3, sub_self, abs_zero]
        exact epsilon_pos
      · refine h2 ?_
        rw [h3, sub_self, abs_zero]
        exact epsilon_pos

/-- `mapInsertWith` never produces the empty list. -/
theorem mapInsertWith_ne_nil {α β : Type} [DecidableEq α]
    {ltb : α → α → Bool} {f : β → β} {k : α} {d : β} :
    ∀ {m : List (α × β)}, mapInsertWith ltb f k d m ≠ [] := by
  intro m
  cases m with
  | nil => simp [mapInsertWith]
  | cons p rest =>
    rw [mapInsertWith]
    by_cases h1 : ltb k p.1
    · simp [h1]
    · rw [if_neg h1]
      by_cases h2 : k = p.1
      · rw [if_pos h2]; simp
      · rw [if_neg h2]; simp

/-- An integer never sorts before itself. -/
theorem intLtb_self (d : Int) : intLtb d d = false := by
  simp [intLtb]

/-- Two bumps of the same document compose additively. -/
theorem bumpQ_compose {d : Int} {a b : ℚ} : ∀ {m : List (Int × ℚ)},
    bumpQ d a (bumpQ d b m) = bumpQ d (b + a) m := by
  intro m
  induction m with
  | nil =>
    show bumpQ d a [(d, b)] = [(d, b + a)]
    simp [bumpQ, mapInsertWith, intLtb_self]
  | cons p rest ih =>
    by_cases h1 : intLtb d p.1
    · have e1 : bumpQ d b (p :: rest) = (d, b) :: p :: rest := by
        simp only [bumpQ, mapInsertWith]
        rw [if_pos h1]
      have e2 : bumpQ d (b + a) (p :: rest) = (d, b + a) :: p :: rest := by
        simp only [bumpQ, mapInsertWith]
        rw [if_pos h1]
      rw [e1, e2]
      simp [bumpQ, mapInsertWith, intLtb_self]
    · by_cases h2 : d = p.1
      · have e1 : bumpQ d b (p :: rest) = (p.1, p.2 + b) :: rest := by
          simp only [bumpQ, mapInsertWith]
          rw [if_neg h1, if_pos h2]
        have e2 : bumpQ d (b + a) (p :: rest) = (p.1, p.2 + (b + a)) :: rest := by
          simp only [bumpQ, mapInsertWith]
          rw [if_neg h1, if_pos h2]
        rw [e1, e2]
        simp only [bumpQ, mapInsertWith]
        rw [if_neg (by simpa using h1), if_pos h2, add_assoc]
      · have e1 : bumpQ d b (p :: rest) = p :: bumpQ d b rest := by
          simp only [bumpQ, mapInsertWith]
          rw [if_neg h1, if_neg h2]
        have e2 : bumpQ d (b + a) (p :: rest) = p :: bumpQ d (b + a) rest := by
          simp only [bumpQ, mapInsertWith]
          rw [if_neg h1, if_neg h2]
        rw [e1, e2]
        show bumpQ d a (p :: bumpQ d b rest) = p :: bumpQ d (b + a) rest
        simp only [bumpQ, mapInsertWith]
        rw [if_neg h1, if_neg h2]
        exact congrArg _ ih

/-- Self lookup after a bump. -/
theorem bumpQ_find_self {d : Int} {v : ℚ} {m : List (Int × ℚ)}
    (hs : SortedKeys intLtb m) :
    mapFind d (bumpQ d v m) = some ((mapFind d m).elim v (· + v)) :=
  mapFind_insertWith_self intLtb_strict hs

/-- Lookup of a different key after a bump. -/
theorem bumpQ_find_other {d d' : Int} {v : ℚ} {m : List (Int × ℚ)}
    (h : d' ≠ d) : mapFind d' (bumpQ d v m) = mapFind d' m :=
  mapFind_insertWith_other h

/-- `tfFold` keeps the outer map sorted. -/
theorem tfFold_sorted {docId : Int} {inv : ℚ} : ∀ (ws : List String)
    {freqs : List (String × List (Int × ℚ))},
    SortedKeys strLtb freqs → SortedKeys strLtb (tfFold docId inv ws freqs) := by
  intro ws
  induction ws with
  | nil => intro _ h; exact h
  | cons w ws ih =>
    intro freqs h
    rw [tfFold]
    exact ih (sortedKeys_insertWith strLtb_strict h)

/-- Full characterisation of the term-frequency fold: the inner map of a
word touched by the document gets one bump of `count * inv` for `docId`,
every other word entry is untouched. -/
theorem tfFold_find (docId : Int) (inv : ℚ) : ∀ (ws : List String)
    (freqs : List (String × List (Int × ℚ))) (w : String),
    SortedKeys strLtb freqs →
    mapFind w (tfFold docId inv ws freqs) =
      if ws.count w = 0 then mapFind w freqs
      else
        some (bumpQ docId ((ws.count w : ℚ) * inv)
          ((mapFind w freqs).getD [])) := by
  intro ws
  induction ws with
  | nil =>
    intro freqs w _
    simp [tfFold, List.count_nil]
  | cons w' ws ih =>
    intro freqs w hs
    rw [tfFold]
    have hstep : SortedKeys strLtb
        (mapInsertWith strLtb (bumpQ docId inv) w' (bumpQ docId inv [])
          freqs) := sortedKeys_insertWith strLtb_strict hs
    rw [ih _ w hstep]
    by_cases he : w = w'
    · subst he
      have hself :
          mapFind w (mapInsertWith strLtb (bumpQ docId inv) w
            (bumpQ docId inv []) freqs) =
          some (bumpQ docId inv ((mapFind w freqs).getD [])) := by
        rw [mapFind_insertWith_self strLtb_strict hs]
        rcases mapFind w freqs with _ | m <;> rfl
      have hc : (w :: ws).count w = ws.count w + 1 := by
        simp [List.count_cons]
      by_cases h0 : ws.count w = 0
      · rw [if_pos h0, hself, hc, h0]
        rw [if_neg (by omega : ¬ (0 : ℕ) + 1 = 0)]
        have harg : ((0 + 1 : ℕ) : ℚ) * inv = inv := by
          push_cast
          ring
        rw [harg]
      · rw [if_neg h0, hself]
        rw [if_neg (show ¬ (w :: ws).count w = 0 by rw [hc]; omega)]
        simp only [Option.getD_some]
        rw [bumpQ_compose]
        have harg : inv + (ws.count w : ℚ) * inv =
            ((w :: ws).count w : ℚ) * inv := by
          rw [hc]
          push_cast
          ring
        rw [harg]
    · have hother :
          mapFind w (mapInsertWith strLtb (bumpQ docId inv) w'
            (bumpQ docId inv []) freqs) = mapFind w freqs :=
        mapFind_insertWith_other he
      have hb : (w' == w) = false := beq_eq_false_iff_ne.mpr fun h => he h.symm
      have hc : (w' :: ws).count w = ws.count w := by
        rw [List.count_cons, hb]
        simp
      rw [hother, hc]

/-- The invariant holds in the default-constructed server. -/
theorem serverInv_empty : ServerInv emptyServer := by
  refine ⟨?_, ?_, ?_, ?_, ?_, ?_⟩ <;>
    simp [emptyServer, SortedKeys, mapFind]

/-- `setStopWordsFold` touches only the stop-word set. -/
theorem setStopWordsFold_fields : ∀ (ws : List String) (s : SearchServer),
    ((setStopWordsFold s ws).1).word_to_document_freqs_ =
        s.word_to_document_freqs_ ∧
      ((setStopWordsFold s ws).1).documents_ = s.documents_ ∧
      ((setStopWordsFold s ws).1).document_ids_ = s.document_ids_ := by
  intro ws
  induction ws with
  | nil => intro s; exact ⟨rfl, rfl, rfl⟩
  | cons w ws ih =>
    intro s
    rw [setStopWordsFold]
    by_cases h : isValidWord w
    · rw [if_pos h]
      exact ih _
    · rw [if_neg h]
      exact ⟨rfl, rfl, rfl⟩

/-- `SetStopWords` preserves the invariant. -/
theorem serverInv_setStopWords {s : SearchServer} (hinv : ServerInv s)
    (text : String) : ServerInv (SetStopWords s text).1 := by
  obtain ⟨h1, h2, h3⟩ := setStopWordsFold_fields (setOfList (split text)) s
  unfold SetStopWords
  refine ⟨?_, ?_, ?_, ?_, ?_, ?_⟩ <;> simp only [h1, h2]
  · exact hinv.freqSorted
  · exact hinv.innerSorted
  · exact hinv.docsSorted
  · exact hinv.tf_eq
  · exact hinv.complete
  · exact hinv.nonempty

/-- The state equation of a successful `AddDocument`. -/
theorem AddDocument_success_eq {s : SearchServer} {documentId : Int}
    {document : String} {status : DocumentStatus} {ratings : List Int}
    {words : List String}
    (hguard : ¬(documentId < 0 ∨ (mapFind documentId s.documents_).isSome))
    (hsplit : splitIntoWordsNoStop s document = some words) :
    AddDocument s documentId document status ratings =
      ({ word_to_document_freqs_ :=
           calculateTermFrequency s.word_to_document_freqs_ documentId words,
         documents_ :=
           mapInsertWith intLtb (fun old => old) documentId
             ⟨computeAverageRating ratings, status, words⟩ s.documents_,
         m_stopWords := s.m_stopWords,
         document_ids_ := s.document_ids_ ++ [documentId] }, none) := by
  unfold AddDocument
  rw [if_neg hguard, hsplit]

/-- `AddDocument` preserves the invariant. -/
theorem serverInv_addDocument {s : SearchServer} (hinv : ServerInv s)
    (documentId : Int) (document : String) (status : DocumentStatus)
    (ratings : List Int) :
    ServerInv (AddDocument s documentId document status ratings).1 := by
  by_cases hguard : documentId < 0 ∨ (mapFind documentId s.documents_).isSome
  · unfold AddDocument
    rw [if_pos hguard]
    exact hinv
  · rcases hsplit : splitIntoWordsNoStop s document with _ | words
    · unfold AddDocument
      rw [if_neg hguard, hsplit]
      exact hinv
    · rw [AddDocument_success_eq hguard hsplit]
      have hfresh : mapFind documentId s.documents_ = none := by
        rcases hh : mapFind documentId s.documents_ with _ | dd
        · rfl
        · exact absurd (Or.inr (by rw [hh]; rfl)) hguard
      have hfreshInner : ∀ w m,
          mapFind w s.word_to_document_freqs_ = some m →
          mapFind documentId m = none := by
        intro w m hm
        rcases hq : mapFind documentId m with _ | q
        · rfl
        · obtain ⟨dd, hdd, -, -⟩ := hinv.tf_eq w m hm documentId q hq
          rw [hfresh] at hdd
          cases hdd
      have holdSorted : ∀ w,
          SortedKeys intLtb ((mapFind w s.word_to_document_freqs_).getD []) := by
        intro w
        rcases hh : mapFind w s.word_to_document_freqs_ with _ | mOld
        · simp [SortedKeys]
        · simpa using hinv.innerSorted w mOld hh
      have holdFresh : ∀ w, mapFind documentId
          ((mapFind w s.word_to_document_freqs_).getD []) = none := by
        intro w
        rcases hh : mapFind w s.word_to_document_freqs_ with _ | mOld
        · rfl
        · simpa using hfreshInner w mOld hh
      have hfind := fun w => tfFold_find documentId (1 / (words.length : ℚ))
        words s.word_to_document_freqs_ w hinv.freqSorted
      have hdocs_self :
          mapFind documentId (mapInsertWith intLtb (fun old => old)
            documentId ⟨computeAverageRating ratings, status, words⟩
            s.documents_) =
          some ⟨computeAverageRating ratings, status, words⟩ := by
        rw [mapFind_insertWith_self intLtb_strict hinv.docsSorted, hfresh]
        rfl
      have hdocs_other : ∀ d, d ≠ documentId →
          mapFind d (mapInsertWith intLtb (fun old => old) documentId
            ⟨computeAverageRating ratings, status, words⟩ s.documents_) =
          mapFind d s.documents_ := fun _ hd => mapFind_insertWith_other hd
      constructor
      · show SortedKeys strLtb (tfFold documentId (1 / (words.length : ℚ))
          words s.word_to_document_freqs_)
        exact tfFold_sorted words hinv.freqSorted
      · show ∀ w m, mapFind w (tfFold documentId (1 / (words.length : ℚ))
            words s.word_to_document_freqs_) = some m → SortedKeys intLtb m
        intro w m hm
        rw [hfind w] at hm
        by_cases h0 : words.count w = 0
        · rw [if_pos h0] at hm
          exact hinv.innerSorted w m hm
        · rw [if_neg h0] at hm
          cases hm
          exact sortedKeys_insertWith intLtb_strict (holdSorted w)
      · show SortedKeys intLtb (mapInsertWith intLtb (fun old => old)
          documentId ⟨computeAverageRating ratings, status, words⟩
          s.documents_)
        exact sortedKeys_insertWith intLtb_strict hinv.docsSorted
      · show ∀ w m, mapFind w (tfFold documentId (1 / (words.length : ℚ))
            words s.word_to_document_freqs_) = some m →
            ∀ d q, mapFind d m = some q →
            ∃ dd, mapFind d (mapInsertWith intLtb (fun old => old) documentId
                ⟨computeAverageRating ratings, status, words⟩ s.documents_) =
                some dd ∧ w ∈ dd.words ∧
                q = (dd.words.count w : ℚ) / (dd.words.length : ℚ)
        intro w m hm d q hq
        rw [hfind w] at hm
        by_cases h0 : words.count w = 0
        · rw [if_pos h0] at hm
          obtain ⟨dd, hdd, hwmem, hval⟩ := hinv.tf_eq w m hm d q hq
          have hd : d ≠ documentId := fun he => by
            rw [he, hfresh] at hdd
            cases hdd
          exact ⟨dd, by rw [hdocs_other d hd]; exact hdd, hwmem, hval⟩
        · rw [if_neg h0] at hm
          cases hm
          by_cases hd : d = documentId
          · subst hd
            rw [bumpQ_find_self (holdSorted w), holdFresh w] at hq
            have hqv := Option.some.inj hq
            refine ⟨⟨computeAverageRating ratings, status, words⟩,
              hdocs_self, ?_, ?_⟩
            · exact List.count_pos_iff.mp (Nat.pos_of_ne_zero h0)
            · rw [← hqv]
              show (words.count w : ℚ) * (1 / (words.length : ℚ)) = _
              rw [mul_one_div]
          · rw [bumpQ_find_other hd] at hq
            rcases hh : mapFind w s.word_to_document_freqs_ with _ | mOld
            · rw [hh] at hq
              cases hq
            · rw [hh] at hq
              simp only [Option.getD_some] at hq
              obtain ⟨dd, hdd, hwmem, hval⟩ := hinv.tf_eq w mOld hh d q hq
              exact ⟨dd, by rw [hdocs_other d hd]; exact hdd, hwmem, hval⟩
      · show ∀ d dd, mapFind d (mapInsertWith intLtb (fun old => old)
            documentId ⟨computeAverageRating ratings, status, words⟩
            s.documents_) = some dd →
            ∀ w, w ∈ dd.words →
            ∃ m, mapFind w (tfFold documentId (1 / (words.length : ℚ)) words
              s.word_to_document_freqs_) = some m ∧ (mapFind d m).isSome
        intro d dd hdd w hw
        by_cases hd : d = documentId
        · subst hd
          rw [hdocs_self] at hdd
          have hdd2 := Option.some.inj hdd
          have hw2 : w ∈ words := by
            rw [← hdd2] at hw
            exact hw
          have hw0 : words.count w ≠ 0 := by
            rw [ne_eq, List.count_eq_zero]
            intro hc
            exact hc hw2
          refine ⟨_, by rw [hfind w, if_neg hw0], ?_⟩
          rw [bumpQ_find_self (holdSorted w)]
          rfl
        · rw [hdocs_other d hd] at hdd
          obtain ⟨m, hmfind, hmd⟩ := hinv.complete d dd hdd w hw
          by_cases h0 : words.count w = 0
          · exact ⟨m, by rw [hfind w, if_pos h0]; exact hmfind, hmd⟩
          · refine ⟨_, by rw [hfind w, if_neg h0], ?_⟩
            rw [bumpQ_find_other hd, hmfind]
            simpa using hmd
      · show ∀ w m, mapFind w (tfFold documentId (1 / (words.length : ℚ))
            words s.word_to_document_freqs_) = some m → m ≠ []
        intro w m hm
        rw [hfind w] at hm
        by_cases h0 : words.count w = 0
        · rw [if_pos h0] at hm
          exact hinv.nonempty w m hm
        · rw [if_neg h0] at hm
          cases hm
          exact mapInsertWith_ne_nil

/-- Self lookup after a relevance bump. -/
theorem bumpR_find_self {d : Int} {v : ℝ} {m : List (Int × ℝ)}
    (hs : SortedKeys intLtb m) :
    mapFind d (bumpR d v m) = some ((mapFind d m).getD 0 + v) := by
  rw [bumpR, mapFind_insertWith_self intLtb_strict hs]
  rcases mapFind d m with _ | x
  · simp
  · simp

/-- Lookup of a different key after a relevance bump. -/
theorem bumpR_find_other {d d' : Int} {v : ℝ} {m : List (Int × ℝ)}
    (h : d' ≠ d) : mapFind d' (bumpR d v m) = mapFind d' m :=
  mapFind_insertWith_other h

/-- A relevance bump keeps the map sorted. -/
theorem bumpR_sorted {d : Int} {v : ℝ} {m : List (Int × ℝ)}
    (hs : SortedKeys intLtb m) : SortedKeys intLtb (bumpR d v m) :=
  sortedKeys_insertWith intLtb_strict hs

/-- The inner plus loop keeps the relevance map sorted. -/
theorem plusInnerFold_sorted {s : SearchServer}
    {pred : Int → DocumentStatus → Int → Bool} {idf : ℝ} :
    ∀ (ps : List (Int × ℚ)) {m : List (Int × ℝ)}, SortedKeys intLtb m →
    SortedKeys intLtb (plusInnerFold s pred idf ps m) := by
  intro ps
  induction ps with
  | nil => intro m hm; exact hm
  | cons p ps ih =>
    intro m hm
    rw [plusInnerFold]
    by_cases hp : predOk s pred p.1
    · rw [if_pos hp]
      exact ih (sortedKeys_insertWith intLtb_strict hm)
    · rw [if_neg hp]
      exact ih hm

/-- The inner plus loop does not touch documents absent from the term map. -/
theorem plusInnerFold_find_none {s : SearchServer}
    {pred : Int → DocumentStatus → Int → Bool} {idf : ℝ} :
    ∀ (ps : List (Int × ℚ)) (m : List (Int × ℝ)) (d : Int),
    mapFind d ps = none →
    mapFind d (plusInnerFold s pred idf ps m) = mapFind d m := by
  intro ps
  induction ps with
  | nil => intro m d _; rfl
  | cons p ps ih =>
    intro m d hd
    have hne : d ≠ p.1 := by
      intro he
      rw [mapFind, if_pos he] at hd
      cases hd
    have hd2 : mapFind d ps = none := by
      rw [mapFind, if_neg hne] at hd
      exact hd
    rw [plusInnerFold]
    by_cases hp : predOk s pred p.1
    · rw [if_pos hp, ih _ _ hd2, bumpR_find_other hne]
    · rw [if_neg hp, ih _ _ hd2]

/-- The inner plus loop adds exactly one `tf * idf` contribution for a
document listed under the term, when the predicate accepts it. -/
theorem plusInnerFold_find_some {s : SearchServer}
    {pred : Int → DocumentStatus → Int → Bool} {idf : ℝ} :
    ∀ (ps : List (Int × ℚ)) (m : List (Int × ℝ)) (d : Int) (q : ℚ),
    SortedKeys intLtb ps → SortedKeys intLtb m →
    mapFind d ps = some q →
    mapFind d (plusInnerFold s pred idf ps m) =
      if predOk s pred d then some ((mapFind d m).getD 0 + (q : ℝ) * idf)
      else mapFind d m := by
  intro ps
  induction ps with
  | nil => intro m d q _ _ hd; cases hd
  | cons p ps ih =>
    intro m d q hps hm hd
    rw [plusInnerFold]
    by_cases he : d = p.1
    · have hq : q = p.2 := by
        rw [mapFind, if_pos he] at hd
        exact (Option.some.inj hd).symm
      have htail : mapFind d ps = none := by
        rw [he]
        exact sortedKeys_head_not_mem_tail intLtb_strict hps
      by_cases hp : predOk s pred p.1
      · rw [if_pos hp, plusInnerFold_find_none _ _ _ htail]
        have hpd : predOk s pred d = true := by rw [he]; exact hp
        rw [if_pos hpd, ← he, hq]
        rw [bumpR_find_self hm]
      · rw [if_neg hp, plusInnerFold_find_none _ _ _ htail]
        have hpd : ¬ predOk s pred d = true := by rw [he]; exact hp
        rw [if_neg hpd]
    · have hd2 : mapFind d ps = some q := by
        rw [mapFind, if_neg he] at hd
        exact hd
      have hps2 := (List.pairwise_cons.mp hps).2
      by_cases hp : predOk s pred p.1
      · rw [if_pos hp,
          ih _ d q hps2 (bumpR_sorted hm) hd2,
          bumpR_find_other he]
      · rw [if_neg hp, ih _ d q hps2 hm hd2]

/-- The outer plus loop keeps the relevance map sorted. -/
theorem plusFold_sorted {s : SearchServer}
    {pred : Int → DocumentStatus → Int → Bool} :
    ∀ (ws : List String) {m : List (Int × ℝ)}, SortedKeys intLtb m →
    SortedKeys intLtb (plusFold s pred ws m) := by
  intro ws
  induction ws with
  | nil => intro m hm; exact hm
  | cons w ws ih =>
    intro m hm
    rw [plusFold]
    rcases hf : mapFind w s.word_to_document_freqs_ with _ | docFreqs
    · exact ih hm
    · exact ih (plusInnerFold_sorted docFreqs hm)

/-- Full characterisation of the accumulated relevance map: a document is
present exactly when the predicate accepts it and at least one plus term
lists it, and its value adds the sum of the `tf * idf` contributions of the
listing terms. -/
theorem plusFold_find {s : SearchServer}
    {pred : Int → DocumentStatus → Int → Bool}
    (hinner : ∀ w mm, mapFind w s.word_to_document_freqs_ = some mm →
      SortedKeys intLtb mm) :
    ∀ (ws : List String) (m : List (Int × ℝ)) (d : Int),
    SortedKeys intLtb m →
    mapFind d (plusFold s pred ws m) =
      if predOk s pred d ∧ ws.filter (fun w => (wordTF s w d).isSome) ≠ [] then
        some ((mapFind d m).getD 0 +
          ((ws.filter fun w => (wordTF s w d).isSome).map
            fun w => tfIdfOf s w d).sum)
      else mapFind d m := by
  intro ws
  induction ws with
  | nil =>
    intro m d _
    rw [plusFold]
    rw [if_neg (by simp)]
  | cons w ws ih =>
    intro m d hm
    rw [plusFold]
    rcases hw : wordTF s w d with _ | q
    · -- this term does not list the document
      have hfilter : (w :: ws).filter (fun w => (wordTF s w d).isSome) =
          ws.filter (fun w => (wordTF s w d).isSome) := by
        rw [List.filter_cons]
        rw [hw]
        rfl
      rcases hf : mapFind w s.word_to_document_freqs_ with _ | docFreqs
      · rw [ih _ d hm, hfilter]
      · have hdf : mapFind d docFreqs = none := by
          unfold wordTF at hw
          rw [hf] at hw
          exact hw
        have hsame : mapFind d (plusInnerFold s pred
            (computeWordInverseDocumentFreq s w) docFreqs m) = mapFind d m :=
          plusInnerFold_find_none _ _ _ hdf
        rw [ih _ d (plusInnerFold_sorted docFreqs hm), hfilter, hsame]
    · -- this term lists the document with frequency q
      have hf : ∃ docFreqs, mapFind w s.word_to_document_freqs_ =
          some docFreqs ∧ mapFind d docFreqs = some q := by
        unfold wordTF at hw
        rcases hf : mapFind w s.word_to_document_freqs_ with _ | docFreqs
        · rw [hf] at hw; cases hw
        · rw [hf] at hw; exact ⟨docFreqs, rfl, hw⟩
      obtain ⟨docFreqs, hf, hdf⟩ := hf
      rw [hf]
      have hfilter : (w :: ws).filter (fun w => (wordTF s w d).isSome) =
          w :: ws.filter (fun w => (wordTF s w d).isSome) := by
        rw [List.filter_cons, hw]
        rfl
      have hstep := @plusInnerFold_find_some s pred
        (computeWordInverseDocumentFreq s w) docFreqs m d q
        (hinner w docFreqs hf) hm hdf
      have hcontrib : tfIdfOf s w d =
          (q : ℝ) * computeWordInverseDocumentFreq s w := by
        unfold tfIdfOf
        rw [hw]
        rfl
      by_cases hp : predOk s pred d
      · rw [if_pos hp] at hstep
        rw [ih _ d (plusInnerFold_sorted docFreqs hm), hfilter, hstep]
        by_cases hrest : ws.filter (fun w => (wordTF s w d).isSome) = []
        · rw [if_neg (by simp [hrest, hp]), if_pos ⟨hp, by simp⟩, hrest]
          simp [hcontrib]
        · rw [if_pos ⟨hp, hrest⟩, if_pos ⟨hp, by simp⟩]
          simp only [Option.getD_some, List.map_cons, List.sum_cons, hcontrib]
          rw [add_assoc]
      · rw [if_neg hp] at hstep
        rw [ih _ d (plusInnerFold_sorted docFreqs hm), hfilter, hstep]
        rw [if_neg (by simp [hp]), if_neg (by simp [hp])]

/-- The inner minus loop keeps the relevance map sorted. -/
theorem minusInnerFold_sorted : ∀ (ps : List (Int × ℚ))
    {m : List (Int × ℝ)}, SortedKeys intLtb m →
    SortedKeys intLtb (minusInnerFold ps m) := by
  intro ps
  induction ps with
  | nil => intro m hm; exact hm
  | cons p ps ih =>
    intro m hm
    rw [minusInnerFold]
    exact ih (sortedKeys_mapErase hm)

/-- The inner minus loop never adds a document. -/
theorem minusInnerFold_find_none : ∀ (ps : List (Int × ℚ))
    (m : List (Int × ℝ)) (d : Int), mapFind d m = none →
    mapFind d (minusInnerFold ps m) = none := by
  intro ps
  induction ps with
  | nil => intro m d h; exact h
  | cons p ps ih =>
    intro m d h
    rw [minusInnerFold]
    refine ih _ _ ?_
    by_cases he : d = p.1
    · rw [he]
      exact mapFind_mapErase_self
    · rw [mapFind_mapErase_other he]
      exact h

/-- Every document listed under the minus term is erased. -/
theorem minusInnerFold_find_erased : ∀ (ps : List (Int × ℚ))
    (m : List (Int × ℝ)) (d : Int), d ∈ ps.map Prod.fst →
    mapFind d (minusInnerFold ps m) = none := by
  intro ps
  induction ps with
  | nil => intro m d h; cases h
  | cons p ps ih =>
    intro m d h
    rw [minusInnerFold]
    rw [List.map_cons] at h
    rcases List.mem_cons.mp h with he | hm
    · refine minusInnerFold_find_none _ _ _ ?_
      rw [he]
      exact mapFind_mapErase_self
    · exact ih _ _ hm

/-- The inner minus loop only deletes: a surviving lookup is unchanged. -/
theorem minusInnerFold_find_or : ∀ (ps : List (Int × ℚ))
    (m : List (Int × ℝ)) (d : Int),
    mapFind d (minusInnerFold ps m) = none ∨
      mapFind d (minusInnerFold ps m) = mapFind d m := by
  intro ps
  induction ps with
  | nil => intro m d; exact Or.inr rfl
  | cons p ps ih =>
    intro m d
    rw [minusInnerFold]
    rcases ih (mapErase p.1 m) d with h | h
    · exact Or.inl h
    · by_cases he : d = p.1
      · rw [h, he]
        exact Or.inl mapFind_mapErase_self
      · rw [h, mapFind_mapErase_other he]
        exact Or.inr rfl

/-- The minus loop keeps the relevance map sorted. -/
theorem minusFold_sorted {s : SearchServer} : ∀ (ws : List String)
    {m : List (Int × ℝ)}, SortedKeys intLtb m →
    SortedKeys intLtb (minusFold s ws m) := by
  intro ws
  induction ws with
  | nil => intro m hm; exact hm
  | cons w ws ih =>
    intro m hm
    rw [minusFold]
    rcases hf : mapFind w s.word_to_document_freqs_ with _ | docFreqs
    · exact ih hm
    · exact ih (minusInnerFold_sorted docFreqs hm)

/-- The minus loop never adds a document. -/
theorem minusFold_find_none {s : SearchServer} : ∀ (ws : List String)
    (m : List (Int × ℝ)) (d : Int), mapFind d m = none →
    mapFind d (minusFold s ws m) = none := by
  intro ws
  induction ws with
  | nil => intro m d h; exact h
  | cons w ws ih =>
    intro m d h
    rw [minusFold]
    rcases hf : mapFind w s.word_to_document_freqs_ with _ | docFreqs
    · exact ih _ _ h
    · exact ih _ _ (minusInnerFold_find_none _ _ _ h)

/-- The minus loop only deletes: a surviving lookup is unchanged. -/
theorem minusFold_find_or {s : SearchServer} : ∀ (ws : List String)
    (m : List (Int × ℝ)) (d : Int),
    mapFind d (minusFold s ws m) = none ∨
      mapFind d (minusFold s ws m) = mapFind d m := by
  intro ws
  induction ws with
  | nil => intro m d; exact Or.inr rfl
  | cons w ws ih =>
    intro m d
    rw [minusFold]
    rcases hf : mapFind w s.word_to_document_freqs_ with _ | docFreqs
    · exact ih _ _
    · rcases ih (minusInnerFold docFreqs m) d with h | h
      · exact Or.inl h
      · rcases minusInnerFold_find_or docFreqs m d with h2 | h2
        · rw [h, h2]
          exact Or.inl rfl
        · rw [h, h2]
          exact Or.inr rfl

/-- A document indexed under any minus term of the query is erased from the
relevance map, whatever else the loops do. -/
theorem minusFold_find_hit {s : SearchServer} : ∀ (ws : List String)
    (m : List (Int × ℝ)) (d : Int),
    (∃ w ∈ ws, ∃ mm, mapFind w s.word_to_document_freqs_ = some mm ∧
      (mapFind d mm).isSome) →
    mapFind d (minusFold s ws m) = none := by
  intro ws
  induction ws with
  | nil =>
    intro m d h
    obtain ⟨w, hw, -⟩ := h
    cases hw
  | cons w ws ih =>
    intro m d h
    obtain ⟨w', hw', mm, hmm, hsome⟩ := h
    rw [minusFold]
    rcases List.mem_cons.mp hw' with he | hmem
    · subst he
      rw [hmm]
      refine minusFold_find_none _ _ _ ?_
      refine minusInnerFold_find_erased _ _ _ ?_
      exact mapFind_isSome_iff.mp hsome
    · rcases hf : mapFind w s.word_to_document_freqs_ with _ | docFreqs
      · exact ih _ _ ⟨w', hmem, mm, hmm, hsome⟩
      · exact ih _ _ ⟨w', hmem, mm, hmm, hsome⟩

/-- Reading `wordTF` when the term is present. -/
theorem wordTF_of_find {s : SearchServer} {w : String} {d : Int}
    {mm : List (Int × ℚ)} (h : mapFind w s.word_to_document_freqs_ = some mm) :
    wordTF s w d = mapFind d mm := by
  unfold wordTF
  rw [h]

/-- Reading `wordTF` when the term is absent. -/
theorem wordTF_of_none {s : SearchServer} {w : String} {d : Int}
    (h : mapFind w s.word_to_document_freqs_ = none) :
    wordTF s w d = none := by
  unfold wordTF
  rw [h]

/-- Unpacking a present `wordTF`. -/
theorem wordTF_some_elim {s : SearchServer} {w : String} {d : Int} {q : ℚ}
    (h : wordTF s w d = some q) :
    ∃ mm, mapFind w s.word_to_document_freqs_ = some mm ∧
      mapFind d mm = some q := by
  rcases hf : mapFind w s.word_to_document_freqs_ with _ | mm
  · rw [wordTF_of_none hf] at h
    cases h
  · rw [wordTF_of_find hf] at h
    exact ⟨mm, rfl, h⟩

/-- A satisfied predicate check names a stored document. -/
theorem predOk_elim {s : SearchServer}
    {pred : Int → DocumentStatus → Int → Bool} {d : Int}
    (h : predOk s pred d = true) :
    ∃ dd, mapFind d s.documents_ = some dd ∧
      pred d dd.status dd.rating = true := by
  unfold predOk at h
  rcases hh : mapFind d s.documents_ with _ | dd
  · rw [hh] at h
    simp at h
  · rw [hh] at h
    exact ⟨dd, rfl, h⟩

/-- Under the invariant, the size of a term entry equals the number of
stored documents whose word list contains the term. -/
theorem inner_length_eq {s : SearchServer} (hinv : ServerInv s) {w : String}
    {m : List (Int × ℚ)} (hm : mapFind w s.word_to_document_freqs_ = some m) :
    m.length =
      (s.documents_.filter fun p => decide (w ∈ p.2.words)).length := by
  have h1 : (m.map Prod.fst).Nodup :=
    nodup_keys intLtb_strict (hinv.innerSorted w m hm)
  have hsub : ((s.documents_.filter fun p => decide (w ∈ p.2.words)).map
      Prod.fst).Sublist (s.documents_.map Prod.fst) :=
    (List.filter_sublist _).map Prod.fst
  have h2 : ((s.documents_.filter fun p => decide (w ∈ p.2.words)).map
      Prod.fst).Nodup :=
    List.Pairwise.sublist hsub (nodup_keys intLtb_strict hinv.docsSorted)
  have hiff : ∀ d : Int, d ∈ m.map Prod.fst ↔
      d ∈ (s.documents_.filter fun p => decide (w ∈ p.2.words)).map
        Prod.fst := by
    intro d
    constructor
    · intro hd
      have hsome : (mapFind d m).isSome := mapFind_isSome_iff.mpr hd
      obtain ⟨q, hq⟩ := Option.isSome_iff_exists.mp hsome
      obtain ⟨dd, hdd, hwmem, -⟩ := hinv.tf_eq w m hm d q hq
      refine List.mem_map.mpr ⟨(d, dd), ?_, rfl⟩
      refine List.mem_filter.mpr ⟨mapFind_mem hdd, ?_⟩
      simpa using hwmem
    · intro hd
      obtain ⟨p, hp, hpd⟩ := List.mem_map.mp hd
      have hpf := List.mem_filter.mp hp
      have hpmem : (p.1, p.2) ∈ s.documents_ := by
        rw [Prod.mk.eta]
        exact hpf.1
      have hlookup : mapFind p.1 s.documents_ = some p.2 :=
        mem_mapFind intLtb_strict hinv.docsSorted hpmem
      obtain ⟨m2, hm2, hsome⟩ := hinv.complete p.1 p.2 hlookup w
        (of_decide_eq_true hpf.2)
      rw [hm] at hm2
      have hme : m = m2 := Option.some.inj hm2
      rw [← hme] at hsome
      rw [← hpd]
      exact mapFind_isSome_iff.mp hsome
  have hperm := (List.perm_ext_iff_of_nodup h1 h2).mpr hiff
  have hlen := hperm.length_eq
  rw [List.length_map, List.length_map] at hlen
  exact hlen

/-- Under the invariant, the evaluator sum coincides with the
specification formula. -/
theorem relevance_eq_spec {s : SearchServer} (hinv : ServerInv s)
    {d : Int} {dd : DocumentData} (hdd : mapFind d s.documents_ = some dd)
    (plus : List String) :
    ((plus.filter fun w => (wordTF s w d).isSome).map
      fun w => tfIdfOf s w d).sum = specRelevance s plus dd := by
  unfold specRelevance
  have hfilter : plus.filter (fun w => (wordTF s w d).isSome) =
      plus.filter (fun t => decide (t ∈ dd.words)) := by
    refine List.filter_congr ?_
    intro w _
    rcases htf : wordTF s w d with _ | q
    · symm
      rw [Option.isSome_none, decide_eq_false_iff_not]
      intro hmem
      obtain ⟨mm, hmm, hsome⟩ := hinv.complete d dd hdd w hmem
      rw [wordTF_of_find hmm] at htf
      rw [htf] at hsome
      cases hsome
    · obtain ⟨mm, hmm, hq⟩ := wordTF_some_elim htf
      obtain ⟨dd2, hdd2, hw2, -⟩ := hinv.tf_eq w mm hmm d q hq
      rw [hdd] at hdd2
      have hde : dd = dd2 := Option.some.inj hdd2
      symm
      rw [Option.isSome_some, decide_eq_true_eq]
      rw [hde]
      exact hw2
  rw [hfilter]
  refine congrArg List.sum (List.map_congr_left ?_)
  intro t ht
  have htmem : t ∈ dd.words := of_decide_eq_true (List.mem_filter.mp ht).2
  obtain ⟨mm, hmm, hsome⟩ := hinv.complete d dd hdd t htmem
  obtain ⟨q, hq⟩ := Option.isSome_iff_exists.mp hsome
  obtain ⟨dd2, hdd2, -, hval⟩ := hinv.tf_eq t mm hmm d q hq
  rw [hdd] at hdd2
  have hde : dd = dd2 := Option.some.inj hdd2
  rw [← hde] at hval
  unfold tfIdfOf computeWordInverseDocumentFreq
  rw [wordTF_of_find hmm, hq, hmm]
  simp only [Option.getD_some]
  rw [inner_length_eq hinv hmm, hval]
  push_cast
  ring

/-- Unpacking a successful `FindTopDocuments`. -/
theorem findTop_elim {s : SearchServer} {rawQuery : String}
    {pred : Int → DocumentStatus → Int → Bool} {l : List Document}
    (h : FindTopDocuments s rawQuery pred = some l) :
    ∃ qu, parseQuery s rawQuery = some qu ∧
      l = truncateTop (sortDocuments (findAllDocuments s qu pred)) := by
  unfold FindTopDocuments at h
  rcases hq : parseQuery s rawQuery with _ | qu
  · rw [hq] at h
    cases h
  · rw [hq] at h
    exact ⟨qu, rfl, (Option.some.inj h).symm⟩

/-- Sorting and truncation only reorder and drop entries. -/
theorem mem_of_mem_sortTrunc {doc : Document} {l : List Document}
    (h : doc ∈ truncateTop (sortDocuments l)) : doc ∈ l :=
  (sortDocuments_perm l).mem_iff.mp
    (List.Sublist.mem h (truncateTop_sublist _))

/-- Unpacking membership in the evaluator result. -/
theorem findAllDocuments_mem {s : SearchServer} {query : Query}
    {pred : Int → DocumentStatus → Int → Bool} {doc : Document}
    (h : doc ∈ findAllDocuments s query pred) :
    ∃ p : Int × ℝ,
      p ∈ minusFold s query.minus_words (plusFold s pred query.plus_words []) ∧
      doc = ⟨p.1, p.2, ratingOf s p.1⟩ := by
  unfold findAllDocuments at h
  obtain ⟨p, hp, he⟩ := List.mem_map.mp h
  exact ⟨p, hp, he.symm⟩

/-- The relevance map after both folds is sorted. -/
theorem afterMinus_sorted (s : SearchServer) (query : Query)
    (pred : Int → DocumentStatus → Int → Bool) :
    SortedKeys intLtb
      (minusFold s query.minus_words (plusFold s pred query.plus_words [])) :=
  minusFold_sorted _ (plusFold_sorted _ List.Pairwise.nil)

/-- Every reachable state satisfies the invariant. -/
theorem reachable_inv : ∀ {s : SearchServer}, Reachable s → ServerInv s := by
  intro s h
  induction h with
  | empty => exact serverInv_empty
  | setStop s text _ ih => exact serverInv_setStopWords ih text
  | addDoc s documentId document status ratings _ ih =>
    exact serverInv_addDocument ih documentId document status ratings

/-- A value property preserved by the combining function and satisfied by
the default holds for every value after an insertion. -/
theorem insertWith_values {α β : Type} [DecidableEq α] {ltb : α → α → Bool}
    {f : β → β} {k : α} {d : β} {P : β → Prop}
    (hf : ∀ v, P v → P (f v)) (hd : P d) :
    ∀ {m : List (α × β)}, (∀ p ∈ m, P p.2) →
      ∀ p ∈ mapInsertWith ltb f k d m, P p.2 := by
  intro m
  induction m with
  | nil =>
    intro _ p hp
    rw [mapInsertWith, List.mem_singleton] at hp
    rw [hp]
    exact hd
  | cons q rest ih =>
    intro hm p hp
    by_cases h1 : ltb k q.1
    · rw [mapInsertWith, if_pos h1] at hp
      rcases List.mem_cons.mp hp with he | hp2
      · rw [he]; exact hd
      · exact hm p hp2
    · rw [mapInsertWith, if_neg h1] at hp
      by_cases h2 : k = q.1
      · rw [if_pos h2] at hp
        rcases List.mem_cons.mp hp with he | hp2
        · rw [he]
          exact hf _ (hm q (List.mem_cons_self ..))
        · exact hm p (List.mem_cons_of_mem _ hp2)
      · rw [if_neg h2] at hp
        rcases List.mem_cons.mp hp with he | hp2
        · rw [he]; exact hm q (List.mem_cons_self ..)
        · exact ih (fun r hr => hm r (List.mem_cons_of_mem _ hr)) p hp2

/-- The term-frequency fold never creates an empty document map. -/
theorem tfFold_values {docId : Int} {inv : ℚ} : ∀ (ws : List String)
    {freqs : List (String × List (Int × ℚ))},
    (∀ p ∈ freqs, p.2 ≠ []) → ∀ p ∈ tfFold docId inv ws freqs, p.2 ≠ [] := by
  intro ws
  induction ws with
  | nil => intro freqs h; exact h
  | cons w ws ih =>
    intro freqs h
    rw [tfFold]
    have hstep := @insertWith_values String (List (Int × ℚ)) _ strLtb
      (bumpQ docId inv) w (bumpQ docId inv [])
      (fun v => v ≠ []) (fun _ _ => mapInsertWith_ne_nil)
      mapInsertWith_ne_nil freqs h
    exact ih hstep

/-- C++ truncating division, written as the specification words it: the
magnitude quotient with the sign of the dividend. -/
theorem tdiv_sign_natAbs (a : Int) (n : Nat) :
    Int.tdiv a (n : Int) = a.sign * ((a.natAbs / n : ℕ) : Int) := by
  rcases a with m | m
  · cases m with
    | zero => simp
    | succ k =>
      show Int.tdiv (Int.ofNat (k + 1)) (Int.ofNat n) = _
      rw [Int.tdiv]
      simp [Int.sign, Int.natAbs]
  · show Int.tdiv (Int.negSucc m) (Int.ofNat n) = _
    rw [Int.tdiv]
    simp [Int.sign, Int.natAbs]

/-- `computeAverageRating` is the truncated-toward-zero integer mean, and 0
on the empty list. -/
theorem computeAverageRating_trunc (ratings : List Int) :
    computeAverageRating ratings =
      if ratings.length = 0 then 0
      else ratings.sum.sign *
        ((ratings.sum.natAbs / ratings.length : ℕ) : Int) := by
  unfold computeAverageRating
  by_cases h : ratings.length = 0
  · rw [if_pos h, if_pos h]
  · rw [if_neg h, if_neg h]
    exact tdiv_sign_natAbs ratings.sum ratings.length

/-- The one-document example server is reachable. -/
theorem exServer1_reachable : Reachable exServer1 :=
  Reachable.addDoc emptyServer 0 "cat" DocumentStatus.ACTUAL [1, 2, 3]
    Reachable.empty

end SearchEngine

namespace LooseEngine

open SearchEngine (DocumentStatus DocumentData mapFind mapInsertWith mapErase
  strLtb intLtb bumpQ tfFold computeAverageRating)

/-- `addDocumentData` never touches the term index. -/
theorem addDocumentData_freqs (s : LooseServer) (document_id : Int)
    (words : List String) (status : DocumentStatus) (ratings : List Int) :
    ((addDocumentData s document_id words status
        ratings).1).word_to_document_freqs_ = s.word_to_document_freqs_ := by
  unfold addDocumentData
  rcases mapFind document_id s.documents_ with _ | dd <;> rfl

/-- `deleteAllDocumentWords` leaves no empty term entry, from any state. -/
theorem deleteAllDocumentWords_nonempty (s : LooseServer) (documentId : Int) :
    ∀ p ∈ (deleteAllDocumentWords s documentId).word_to_document_freqs_,
      p.2 ≠ [] := by
  intro p hp
  have h2 := (List.mem_filter.mp hp).2
  intro he
  rw [he] at h2
  simp at h2

/-- The loose `calculateTermFrequency` preserves the no-empty-entry
invariant. -/
theorem calculateTermFrequency_nonempty (s : LooseServer) (documentId : Int)
    (h : ∀ p ∈ s.word_to_document_freqs_, p.2 ≠ []) :
    ∀ p ∈ (calculateTermFrequency s documentId).word_to_document_freqs_,
      p.2 ≠ [] := by
  unfold calculateTermFrequency
  exact SearchEngine.tfFold_values _ h

/-- The store-or-merge step preserves the no-empty-entry invariant. -/
theorem addAndClean_nonempty (s : LooseServer) (document_id : Int)
    (words : List String) (status : DocumentStatus) (ratings : List Int)
    (h : ∀ p ∈ s.word_to_document_freqs_, p.2 ≠ []) :
    ∀ p ∈ (addAndClean s document_id words status
        ratings).word_to_document_freqs_, p.2 ≠ [] := by
  unfold addAndClean
  by_cases hb : (addDocumentData s document_id words status ratings).2
  · rw [if_pos hb, addDocumentData_freqs]
    exact h
  · rw [if_neg hb]
    exact deleteAllDocumentWords_nonempty _ _

/-- The loose `AddDocument` preserves the no-empty-entry invariant. -/
theorem addDocument_loose_nonempty (s : LooseServer) (document_id : Int)
    (document : String) (status : DocumentStatus) (ratings : List Int)
    (h : ∀ p ∈ s.word_to_document_freqs_, p.2 ≠ []) :
    ∀ p ∈ ((AddDocument s document_id document status
        ratings).1).word_to_document_freqs_, p.2 ≠ [] := by
  unfold AddDocument
  by_cases hd : document = ""
  · rw [if_pos hd]
    exact h
  · rw [if_neg hd]
    exact calculateTermFrequency_nonempty _ _
      (addAndClean_nonempty _ _ _ _ _ h)

/-- The only failing outcome of the loose `AddDocument` is the empty
document, rejected before any mutation. -/
theorem addDocument_loose_atomic (s : LooseServer) (document_id : Int)
    (document : String) (status : DocumentStatus) (ratings : List Int)
    (h : (AddDocument s document_id document status ratings).2 = false) :
    (AddDocument s document_id document status ratings).1 = s := by
  unfold AddDocument at h ⊢
  by_cases hd : document = ""
  · rw [if_pos hd]
  · rw [if_neg hd] at h
    cases h

end LooseEngine

namespace SearchEngine

/-- C1: for every reachable index state, every query that parses
successfully and every predicate, the relevance `FindTopDocuments` reports
for each returned document equals the sum, over the plus terms of the
query that occur in that document, of the term frequency of the term in
the document (occurrence count over non-stop-word term count) multiplied
by `ln(totalDocumentCount / numberOfDocumentsContainingTerm)`. -/
theorem findTopDocuments_relevance_spec (s : SearchServer)
    (hreach : Reachable s) (rawQuery : String)
    (pred : Int → DocumentStatus → Int → Bool) (qu : Query)
    (hq : parseQuery s rawQuery = some qu) (l : List Document)
    (hl : FindTopDocuments s rawQuery pred = some l) :
    ∀ doc ∈ l, ∃ dd, mapFind doc.id s.documents_ = some dd ∧
      doc.relevance = specRelevance s qu.plus_words dd := by
  intro doc hdoc
  have hinv := reachable_inv hreach
  obtain ⟨qu2, hq2, hl2⟩ := findTop_elim hl
  rw [hq] at hq2
  have hq3 := Option.some.inj hq2
  subst hq3
  rw [hl2] at hdoc
  obtain ⟨p, hp, he⟩ := findAllDocuments_mem (mem_of_mem_sortTrunc hdoc)
  have hlook : mapFind p.1 (minusFold s qu.minus_words
      (plusFold s pred qu.plus_words [])) = some p.2 := by
    refine mem_mapFind intLtb_strict (afterMinus_sorted s qu pred) ?_
    rw [Prod.mk.eta]
    exact hp
  rcases minusFold_find_or qu.minus_words (plusFold s pred qu.plus_words [])
      p.1 with hnone | hsame
  · rw [hlook] at hnone
    cases hnone
  · rw [hlook] at hsame
    rw [plusFold_find hinv.innerSorted qu.plus_words [] p.1
      List.Pairwise.nil] at hsame
    by_cases hcond : predOk s pred p.1 = true ∧
        qu.plus_words.filter (fun w => (wordTF s w p.1).isSome) ≠ []
    · rw [if_pos hcond] at hsame
      have hval := Option.some.inj hsame
      obtain ⟨dd, hdd, -⟩ := predOk_elim hcond.1
      have hid : doc.id = p.1 := by rw [he]
      have hrel : doc.relevance = p.2 := by rw [he]
      refine ⟨dd, ?_, ?_⟩
      · rw [hid]
        exact hdd
      · rw [hrel, hval]
        show (0 : ℝ) + _ = _
        rw [zero_add]
        exact relevance_eq_spec hinv hdd qu.plus_words
    · rw [if_neg hcond] at hsame
      simp [mapFind] at hsame

/-- C2: a query with a minus term excludes every document indexed under
the bare form of that term from the result of `FindTopDocuments`,
regardless of the predicate and of any plus-term matches. -/
theorem findTopDocuments_minus_excludes (s : SearchServer)
    (rawQuery : String) (pred : Int → DocumentStatus → Int → Bool)
    (qu : Query) (hq : parseQuery s rawQuery = some qu) (l : List Document)
    (hl : FindTopDocuments s rawQuery pred = some l) (id : Int)
    (hminus : ∃ w ∈ qu.minus_words, ∃ mm,
      mapFind w s.word_to_document_freqs_ = some mm ∧
      (mapFind id mm).isSome) :
    ∀ doc ∈ l, doc.id ≠ id := by
  intro doc hdoc hid
  obtain ⟨qu2, hq2, hl2⟩ := findTop_elim hl
  rw [hq] at hq2
  have hq3 := Option.some.inj hq2
  subst hq3
  rw [hl2] at hdoc
  obtain ⟨p, hp, he⟩ := findAllDocuments_mem (mem_of_mem_sortTrunc hdoc)
  have hlook : mapFind p.1 (minusFold s qu.minus_words
      (plusFold s pred qu.plus_words [])) = some p.2 := by
    refine mem_mapFind intLtb_strict (afterMinus_sorted s qu pred) ?_
    rw [Prod.mk.eta]
    exact hp
  have hnone : mapFind id (minusFold s qu.minus_words
      (plusFold s pred qu.plus_words [])) = none :=
    minusFold_find_hit _ _ _ hminus
  have hdid : doc.id = p.1 := by rw [he]
  rw [hdid] at hid
  rw [hid, hnone] at hlook
  cases hlook

/-- C3: in every list `FindTopDocuments` returns, any entry `A` anywhere
before an entry `B` satisfies `A.relevance > B.relevance`, or
`|A.relevance - B.relevance| < 1e-6` and `A.rating >= B.rating`. -/
theorem findTopDocuments_ordering (s : SearchServer) (rawQuery : String)
    (pred : Int → DocumentStatus → Int → Bool) (l : List Document)
    (hl : FindTopDocuments s rawQuery pred = some l) :
    l.Pairwise fun a b => b.relevance < a.relevance ∨
      (|a.relevance - b.relevance| < EPSILON ∧ b.rating ≤ a.rating) := by
  obtain ⟨qu, -, hl2⟩ := findTop_elim hl
  rw [hl2]
  exact List.Pairwise.imp (fun h => docQ_implies_claim h)
    (List.Pairwise.sublist (truncateTop_sublist _) (pairwiseQ_sortDocuments _))

/-- C4: every list `FindTopDocuments` returns has at most
`MAX_RESULT_DOCUMENT_COUNT = 5` entries. -/
theorem findTopDocuments_capped (s : SearchServer) (rawQuery : String)
    (pred : Int → DocumentStatus → Int → Bool) (l : List Document)
    (hl : FindTopDocuments s rawQuery pred = some l) :
    l.length ≤ 5 := by
  obtain ⟨qu, -, hl2⟩ := findTop_elim hl
  rw [hl2]
  unfold truncateTop MAX_RESULT_DOCUMENT_COUNT
  by_cases h : 5 < (sortDocuments (findAllDocuments s qu pred)).length
  · rw [if_pos h, List.length_take]
    exact min_le_left _ _
  · rw [if_neg h]
    omega

/-- C5: a document accepted by `AddDocument` stores as its rating the
integer mean of the supplied ratings, truncated toward zero, and 0 for an
empty ratings list. -/
theorem addDocument_rating_trunc_mean (s : SearchServer)
    (hreach : Reachable s) (documentId : Int) (document : String)
    (status : DocumentStatus) (ratings : List Int)
    (hok : (AddDocument s documentId document status ratings).2 = none) :
    ∃ dd, mapFind documentId
        ((AddDocument s documentId document status ratings).1).documents_ =
        some dd ∧
      dd.rating = (if ratings.length = 0 then 0
        else ratings.sum.sign *
          ((ratings.sum.natAbs / ratings.length : ℕ) : Int)) := by
  by_cases hguard : documentId < 0 ∨ (mapFind documentId s.documents_).isSome
  · unfold AddDocument at hok
    rw [if_pos hguard] at hok
    simp at hok
  · rcases hsplit : splitIntoWordsNoStop s document with _ | words
    · unfold AddDocument at hok
      rw [if_neg hguard, hsplit] at hok
      simp at hok
    · rw [AddDocument_success_eq hguard hsplit]
      have hfresh : mapFind documentId s.documents_ = none := by
        rcases hh : mapFind documentId s.documents_ with _ | dd
        · rfl
        · exact absurd (Or.inr (by rw [hh]; rfl)) hguard
      refine ⟨⟨computeAverageRating ratings, status, words⟩, ?_, ?_⟩
      · show mapFind documentId (mapInsertWith intLtb (fun old => old)
          documentId ⟨computeAverageRating ratings, status, words⟩
          s.documents_) = _
        rw [mapFind_insertWith_self intLtb_strict
          (reachable_inv hreach).docsSorted, hfresh]
        rfl
      · show computeAverageRating ratings = _
        rw [computeAverageRating_trunc]

/-- C6 counterexample: `AddDocument` on the validating server accepts the
empty document text (the split of an empty string yields no words, so no
validation failure occurs) and stores a document, contradicting the claim
that empty text fails with `InvalidArgument`. -/
theorem addDocument_empty_text_accepted :
    ("" : String) = "" ∧
    (AddDocument emptyServer 0 "" DocumentStatus.ACTUAL []).2 = none ∧
    (mapFind 0 ((AddDocument emptyServer 0 ""
      DocumentStatus.ACTUAL []).1).documents_).isSome = true :=
  ⟨rfl, rfl, rfl⟩

/-- C6 amended: `AddDocument` fails with `InvalidArgument` whenever some
whitespace-delimited token of the text fails `IsValidWord`; empty text by
itself does not cause a failure. -/
theorem addDocument_bad_token_fails (s : SearchServer) (documentId : Int)
    (document : String) (status : DocumentStatus) (ratings : List Int)
    (htok : ∃ tok ∈ split document, isValidWord tok = false) :
    (AddDocument s documentId document status ratings).2 ≠ none := by
  unfold AddDocument
  by_cases hguard : documentId < 0 ∨ (mapFind documentId s.documents_).isSome
  · rw [if_pos hguard]
    simp
  · rw [if_neg hguard]
    have hnall : ¬ ((split document).all isValidWord = true) := by
      rw [List.all_eq_true]
      intro hall
      obtain ⟨tok, hmem, hbad⟩ := htok
      rw [hall tok hmem] at hbad
      cases hbad
    have hsplit : splitIntoWordsNoStop s document = none := by
      unfold splitIntoWordsNoStop
      rw [if_neg hnall]
    rw [hsplit]
    simp

/-- C7: a failing `AddDocument` leaves the server exactly as it was, in
both variants: the validating variant throws before any member is mutated,
and the loose variant only fails on an empty document, before mutating. -/
theorem addDocument_atomic :
    (∀ (s : SearchServer) (documentId : Int) (document : String)
        (status : DocumentStatus) (ratings : List Int),
      (AddDocument s documentId document status ratings).2 ≠ none →
      (AddDocument s documentId document status ratings).1 = s) ∧
    (∀ (ls : LooseEngine.LooseServer) (document_id : Int) (document : String)
        (status : DocumentStatus) (ratings : List Int),
      (LooseEngine.AddDocument ls document_id document status ratings).2 =
        false →
      (LooseEngine.AddDocument ls document_id document status ratings).1 =
        ls) := by
  constructor
  · intro s documentId document status ratings herr
    unfold AddDocument at herr ⊢
    by_cases hguard : documentId < 0 ∨
        (mapFind documentId s.documents_).isSome
    · rw [if_pos hguard]
    · rw [if_neg hguard] at herr ⊢
      rcases hsplit : splitIntoWordsNoStop s document with _ | words
      · rfl
      · rw [hsplit] at herr
        simp at herr
  · exact fun ls a b c d h =>
      LooseEngine.addDocument_loose_atomic ls a b c d h

/-- C8: when any minus term of a successfully parsed query indexes the
target document, `MatchDocument` returns the empty term list together with
the stored status of the document, however many plus terms also match. -/
theorem matchDocument_minus_voids (s : SearchServer) (rawQuery : String)
    (documentId : Int) (qu : Query) (hq : parseQuery s rawQuery = some qu)
    (dd : DocumentData) (hdd : mapFind documentId s.documents_ = some dd)
    (hminus : ∃ w ∈ qu.minus_words, ∃ mm,
      mapFind w s.word_to_document_freqs_ = some mm ∧
      (mapFind documentId mm).isSome) :
    MatchDocument s rawQuery documentId = some ([], dd.status) := by
  have hhit : (qu.minus_words.any fun w =>
      match mapFind w s.word_to_document_freqs_ with
      | none => false
      | some m => (mapFind documentId m).isSome) = true := by
    rw [List.any_eq_true]
    obtain ⟨w, hw, mm, hmm, hsome⟩ := hminus
    exact ⟨w, hw, by rw [hmm]; exact hsome⟩
  unfold MatchDocument
  simp only [hq, hdd, hhit, if_true]

/-- C9: from every reachable state of the validating server, and through
the cited operations of the loose variant, every term present as a key in
the term index maps to a non-empty document map. -/
theorem termIndex_no_empty_entry :
    (∀ s : SearchServer, Reachable s →
      ∀ p ∈ s.word_to_document_freqs_, p.2 ≠ []) ∧
    (∀ (ls : LooseEngine.LooseServer) (documentId : Int),
      ∀ p ∈ (LooseEngine.deleteAllDocumentWords ls
          documentId).word_to_document_freqs_, p.2 ≠ []) ∧
    (∀ (ls : LooseEngine.LooseServer) (document_id : Int)
        (document : String) (status : DocumentStatus) (ratings : List Int),
      (∀ p ∈ ls.word_to_document_freqs_, p.2 ≠ []) →
      ∀ p ∈ ((LooseEngine.AddDocument ls document_id document status
          ratings).1).word_to_document_freqs_, p.2 ≠ []) := by
  refine ⟨?_, ?_, ?_⟩
  · intro s hreach p hp
    have hinv := reachable_inv hreach
    refine hinv.nonempty p.1 p.2 ?_
    refine mem_mapFind strLtb_strict hinv.freqSorted ?_
    rw [Prod.mk.eta]
    exact hp
  · exact LooseEngine.deleteAllDocumentWords_nonempty
  · exact LooseEngine.addDocument_loose_nonempty

/-- C10: the matched-terms list `MatchDocument` returns is strictly
ascending in lexicographic string order, and hence duplicate-free. -/
theorem matchDocument_sorted_nodup (s : SearchServer) (rawQuery : String)
    (documentId : Int) (r : List String × DocumentStatus)
    (h : MatchDocument s rawQuery documentId = some r) :
    r.1.Pairwise (fun a b => strLtb a b = true) ∧ r.1.Nodup := by
  unfold MatchDocument at h
  rcases hq : parseQuery s rawQuery with _ | qu
  · rw [hq] at h
    cases h
  · simp only [hq] at h
    rcases hdd : mapFind documentId s.documents_ with _ | dd
    · simp only [hdd] at h
      cases h
    · simp only [hdd, Option.some.injEq] at h
      have hfiltered : (qu.plus_words.filter fun w =>
          match mapFind w s.word_to_document_freqs_ with
          | none => false
          | some m => (mapFind documentId m).isSome).Pairwise
          (fun a b => strLtb a b = true) :=
        List.Pairwise.filter _ (parseQuery_sorted hq).1
      have hmain : ((if (qu.minus_words.any fun w =>
          match mapFind w s.word_to_document_freqs_ with
          | none => false
          | some m => (mapFind documentId m).isSome) = true then []
          else qu.plus_words.filter fun w =>
            match mapFind w s.word_to_document_freqs_ with
            | none => false
            | some m => (mapFind documentId m).isSome) :
          List String).Pairwise (fun a b => strLtb a b = true) := by
        by_cases hc : (qu.minus_words.any fun w =>
            match mapFind w s.word_to_document_freqs_ with
            | none => false
            | some m => (mapFind documentId m).isSome) = true
        · rw [if_pos hc]
          exact List.Pairwise.nil
        · rw [if_neg hc]
          exact hfiltered
      have hr1 : r.1.Pairwise (fun a b => strLtb a b = true) := by
        rw [← h]
        exact hmain
      exact ⟨hr1, sortedSet_nodup strLtb_strict hr1⟩

/-- Witness for C1 at a concrete one-document server and query. -/
theorem findTopDocuments_relevance_spec_witness :
    Reachable exServer1 ∧
    parseQuery exServer1 "cat" = some ⟨["cat"], []⟩ ∧
    FindTopDocuments exServer1 "cat" predTrue = some c1out ∧
    c1doc ∈ c1out ∧
    (∃ dd, mapFind c1doc.id exServer1.documents_ = some dd ∧
      c1doc.relevance =
        specRelevance exServer1 (Query.mk ["cat"] []).plus_words dd) :=
  ⟨exServer1_reachable, rfl, rfl, List.mem_singleton_self _,
    findTopDocuments_relevance_spec exServer1 exServer1_reachable "cat"
      predTrue ⟨["cat"], []⟩ rfl c1out rfl c1doc
      (List.mem_singleton_self _)⟩

/-- Witness for C2: the query "cat -cat" excludes the document containing
"cat". -/
theorem findTopDocuments_minus_excludes_witness :
    parseQuery exServer1 "cat -cat" = some ⟨["cat"], ["cat"]⟩ ∧
    FindTopDocuments exServer1 "cat -cat" predTrue = some [] ∧
    (∃ w ∈ (Query.mk ["cat"] ["cat"]).minus_words, ∃ mm,
      mapFind w exServer1.word_to_document_freqs_ = some mm ∧
      (mapFind 0 mm).isSome) ∧
    (∀ doc ∈ ([] : List Document), doc.id ≠ 0) :=
  ⟨rfl, rfl, ⟨"cat", List.mem_singleton_self _, c2mm, rfl, rfl⟩,
    findTopDocuments_minus_excludes exServer1 "cat -cat" predTrue
      ⟨["cat"], ["cat"]⟩ rfl [] rfl 0
      ⟨"cat", List.mem_singleton_self _, c2mm, rfl, rfl⟩⟩

/-- Witness for C3 at a concrete query. -/
theorem findTopDocuments_ordering_witness :
    FindTopDocuments emptyServer "dog" predTrue = some [] ∧
    ([] : List Document).Pairwise (fun a b => b.relevance < a.relevance ∨
      (|a.relevance - b.relevance| < EPSILON ∧ b.rating ≤ a.rating)) :=
  ⟨rfl, findTopDocuments_ordering emptyServer "dog" predTrue [] rfl⟩

/-- Witness for C4 at a concrete query. -/
theorem findTopDocuments_capped_witness :
    FindTopDocuments emptyServer "bird" predTrue = some [] ∧
    ([] : List Document).length ≤ 5 :=
  ⟨rfl, findTopDocuments_capped emptyServer "bird" predTrue [] rfl⟩

/-- Witness for C5: ratings `[8, -3]` store rating `2`. -/
theorem addDocument_rating_trunc_mean_witness :
    (AddDocument emptyServer 0 "cat" DocumentStatus.ACTUAL [8, -3]).2 =
      none ∧
    (∃ dd, mapFind 0 ((AddDocument emptyServer 0 "cat"
        DocumentStatus.ACTUAL [8, -3]).1).documents_ = some dd ∧
      dd.rating = (if ([8, -3] : List Int).length = 0 then 0
        else ([8, -3] : List Int).sum.sign *
          ((([8, -3] : List Int).sum.natAbs /
            ([8, -3] : List Int).length : ℕ) : Int))) ∧
    (if ([8, -3] : List Int).length = 0 then (0 : Int)
      else ([8, -3] : List Int).sum.sign *
        ((([8, -3] : List Int).sum.natAbs /
          ([8, -3] : List Int).length : ℕ) : Int)) = 2 :=
  ⟨rfl, addDocument_rating_trunc_mean emptyServer Reachable.empty 0 "cat"
    DocumentStatus.ACTUAL [8, -3] rfl, by decide⟩

/-- Witness for the amended C6: a control character in a token makes
`AddDocument` fail. -/
theorem addDocument_bad_token_fails_witness :
    (∃ tok ∈ split "a\x01", isValidWord tok = false) ∧
    (AddDocument emptyServer 0 "a\x01" DocumentStatus.ACTUAL []).2 ≠
      none :=
  ⟨by decide, addDocument_bad_token_fails emptyServer 0 "a\x01"
    DocumentStatus.ACTUAL [] (by decide)⟩

/-- Witness for C7: a rejected negative id and a rejected empty document
leave the respective servers untouched. -/
theorem addDocument_atomic_witness :
    (AddDocument emptyServer (-1) "cat" DocumentStatus.ACTUAL []).2 ≠
      none ∧
    (AddDocument emptyServer (-1) "cat" DocumentStatus.ACTUAL []).1 =
      emptyServer ∧
    (LooseEngine.AddDocument ⟨[], [], []⟩ 1 "" DocumentStatus.ACTUAL []).2 =
      false ∧
    (LooseEngine.AddDocument ⟨[], [], []⟩ 1 "" DocumentStatus.ACTUAL []).1 =
      ⟨[], [], []⟩ :=
  ⟨by decide, addDocument_atomic.1 emptyServer (-1) "cat"
      DocumentStatus.ACTUAL [] (by decide), rfl,
    addDocument_atomic.2 ⟨[], [], []⟩ 1 "" DocumentStatus.ACTUAL [] rfl⟩

/-- Witness for C8: matching "cat -cat" against the document containing
"cat" yields the empty list and the stored status. -/
theorem matchDocument_minus_voids_witness :
    parseQuery exServer1 "cat -cat" = some ⟨["cat"], ["cat"]⟩ ∧
    mapFind 0 exServer1.documents_ = some c8dd ∧
    (∃ w ∈ (Query.mk ["cat"] ["cat"]).minus_words, ∃ mm,
      mapFind w exServer1.word_to_document_freqs_ = some mm ∧
      (mapFind 0 mm).isSome) ∧
    MatchDocument exServer1 "cat -cat" 0 = some ([], c8dd.status) :=
  ⟨rfl, rfl, ⟨"cat", List.mem_singleton_self _, c2mm, rfl, rfl⟩,
    matchDocument_minus_voids exServer1 "cat -cat" 0 ⟨["cat"], ["cat"]⟩
      rfl c8dd rfl ⟨"cat", List.mem_singleton_self _, c2mm, rfl, rfl⟩⟩

/-- Witness for C9 at concrete states of both variants. -/
theorem termIndex_no_empty_entry_witness :
    Reachable exServer1 ∧
    (∀ p ∈ exServer1.word_to_document_freqs_, p.2 ≠ []) ∧
    (∀ p ∈ (LooseEngine.deleteAllDocumentWords
        ⟨[], [("cat", [(0, 1)])], []⟩ 0).word_to_document_freqs_,
      p.2 ≠ []) ∧
    (∀ p ∈ ((LooseEngine.AddDocument ⟨[], [], []⟩ 0 "dog"
        DocumentStatus.ACTUAL []).1).word_to_document_freqs_, p.2 ≠ []) :=
  ⟨exServer1_reachable,
    termIndex_no_empty_entry.1 exServer1 exServer1_reachable,
    termIndex_no_empty_entry.2.1 ⟨[], [("cat", [(0, 1)])], []⟩ 0,
    termIndex_no_empty_entry.2.2 ⟨[], [], []⟩ 0 "dog"
      DocumentStatus.ACTUAL [] (by simp)⟩

/-- Witness for C10: matching "dog cat" against the two-word document
returns the terms in ascending order without duplicates. -/
theorem matchDocument_sorted_nodup_witness :
    MatchDocument exServer2 "dog cat" 1 = some c10r ∧
    c10r.1.Pairwise (fun a b => strLtb a b = true) ∧ c10r.1.Nodup :=
  ⟨rfl, (matchDocument_sorted_nodup exServer2 "dog cat" 1 c10r rfl).1,
    (matchDocument_sorted_nodup exServer2 "dog cat" 1 c10r rfl).2⟩

end SearchEngine
